import Mathlib

/-!
# reload: watch a directory tree and restart a command on writes

A shallow embedding of `main.go` (package `main` of `PentoHQ/reload`) together with the
parts of the Go standard library that its behaviour depends on.

* Strings are lists of characters; `len` is the list length.  The only place where the
  program looks at a length is the test `len(path) > 1`, which is taken together with
  "the base name starts with a dot": on such a path the two ways of counting agree.
* `filepath.Base`, `filepath.Clean`, `filepath.Join` and `filepath.Walk` are transcribed from
  the Unix implementation of `path/filepath`, in which `walk` reads the names of a
  directory before it calls the `WalkFunc` on it and so calls it once per directory.
* The file system is a value: what `Lstat` and `readDirNames` answer for the watch root
  and for everything below it.
* `killCmd`, `runCmd`, `watch` and `main` are functions on one state record that holds the
  position of every goroutine; a step is one receive from the outside, or one rendezvous
  on an unbuffered channel followed by what the receiving goroutine does up to its next
  blocking operation.  The answers of `fsnotify`, `pty.Start` and `kill` come with the
  step.  The copying of bytes between the terminal and the child is left out.
-/

namespace Reload

/-! ## Strings and paths -/

/-- A Go `string`. -/
abbrev GoString := List Char

/-- The function `strings.HasPrefix(s, pre)`. -/
def hasPrefix (s pre : GoString) : Bool := pre.isPrefixOf s

/-- The function `os.IsPathSeparator` on Unix. -/
def isPathSeparator (c : Char) : Bool := c == '/'

/-- The function `filepath.Base`: the empty path gives ".", trailing separators are
stripped, the part after the last separator is kept, and a path of separators only
gives "/". -/
def Base (path : GoString) : GoString :=
  if path = [] then ['.'] else
  let stripped := path.reverse.dropWhile isPathSeparator
  let last := stripped.takeWhile (fun c => !isPathSeparator c)
  if last = [] then ['/'] else last.reverse

/-- The backtracking of `filepath.Clean` at a ".." element.  The buffer is kept with its
most recent byte first.  Go runs `w--` once and then `for w > dotdot && buf[w] != '/'`
decrements again: bytes are removed until a separator has been removed or the buffer
is down to `dotdot` bytes. -/
def backtrack (dotdot : Nat) : GoString → GoString
  | [] => []
  | c :: r => if dotdot < r.length && !isPathSeparator c then backtrack dotdot r else r

/-- The test `r == n || os.IsPathSeparator(path[r])` on the unread rest of the path. -/
def atElemEnd (r : GoString) : Bool :=
  match r with
  | [] => true
  | c :: _ => isPathSeparator c

/-- The loop `for r < n` of `filepath.Clean`.  The arguments are the fuel (one unit per
iteration; every iteration reads at least one byte, so the length of the rest is enough,
see `cleanLoop_fuel`), the unread rest of the path, the output buffer (most recent byte
first) and the index `dotdot`. -/
def cleanLoop (rooted : Bool) : Nat → GoString → GoString → Nat → GoString
  | 0, _, out, _ => out.reverse
  | _ + 1, [], out, _ => out.reverse
  | n + 1, c :: r, out, dotdot =>
    if isPathSeparator c then cleanLoop rooted n r out dotdot
    else if c == '.' && atElemEnd r then cleanLoop rooted n r out dotdot
    else if c == '.' && r.head? == some '.' && atElemEnd r.tail then
      if dotdot < out.length then
        cleanLoop rooted n r.tail (backtrack dotdot out) dotdot
      else if !rooted then
        let out1 := if 0 < out.length then '/' :: out else out
        let out2 := '.' :: '.' :: out1
        cleanLoop rooted n r.tail out2 out2.length
      else cleanLoop rooted n r.tail out dotdot
    else
      let out1 :=
        if (rooted && out.length != 1) || (!rooted && out.length != 0) then '/' :: out else out
      let elem := (c :: r).takeWhile (fun x => !isPathSeparator x)
      let rest := (c :: r).dropWhile (fun x => !isPathSeparator x)
      cleanLoop rooted n rest (elem.reverse ++ out1) dotdot

/-- The function `filepath.Clean` on Unix (no volume name). -/
def Clean : GoString → GoString
  | [] => ['.']
  | c :: r =>
    let res :=
      if isPathSeparator c then cleanLoop true r.length r ['/'] 1
      else cleanLoop false (r.length + 1) (c :: r) [] 0
    if res = [] then ['.'] else res

/-- The function `filepath.Join` on two elements: empty elements are ignored and the
result is cleaned. -/
def Join (dir name : GoString) : GoString :=
  if dir ≠ [] then Clean (dir ++ '/' :: name)
  else if name ≠ [] then Clean name
  else []

/-! ## The file system and `filepath.Walk` -/

/-- Error numbers returned by system calls. -/
inductive Errno
  | ENOENT | EACCES | ESRCH | EPERM
  deriving DecidableEq

/-- A non-nil `error` returned by a `WalkFunc`: the sentinel `filepath.SkipDir` or an
error of the operating system. -/
inductive WalkError
  | SkipDir
  | os (e : Errno)
  deriving DecidableEq

/-- What the program reads of an `os.FileInfo`. -/
structure FileInfo where
  isDir : Bool
  deriving DecidableEq

/-- The entries of a directory in the order `readDirNames` returns them, each with what
`Lstat` answers for it: `file` is an entry that is not a directory, `bad` an entry whose
`Lstat` fails, `dir` a directory with the error of reading it (if any) and its own
entries.  The last argument of each constructor is the rest of the listing. -/
inductive Listing
  | nil
  | file (name : GoString) (rest : Listing)
  | bad (name : GoString) (e : Errno) (rest : Listing)
  | dir (name : GoString) (readErr : Option Errno) (children : Listing) (rest : Listing)

/-- What the file system holds at the watch root. -/
inductive Root
  | missing (e : Errno)
  | file
  | dir (readErr : Option Errno) (children : Listing)

/-- The type `filepath.WalkFunc`, with the variables captured by the closure as state. -/
abbrev WalkFunc (σ : Type) := GoString → Option FileInfo → Option Errno → σ → Option WalkError × σ

/-- The body of `filepath.walk` for a directory: `walkFn` is called once with the error of
`readDirNames`; when either is non-nil the result of `walkFn` is returned, otherwise the
loop over the names runs. -/
def walkDir {σ : Type} (walkFn : WalkFunc σ) (path : GoString) (readErr : Option Errno)
    (loop : σ → Option WalkError × σ) (s : σ) : Option WalkError × σ :=
  let r := walkFn path (some ⟨true⟩) readErr s
  if readErr.isSome || r.1.isSome then r else loop r.2

/-- The loop `for _, name := range names` of `filepath.walk`.  An entry that is not a
directory is handed to `walkFn` and any error ends the walk; an entry whose `Lstat` fails
is reported to `walkFn` and only `SkipDir` is swallowed; a directory is walked and only
`SkipDir` is swallowed. -/
def walkNames {σ : Type} (walkFn : WalkFunc σ) (path : GoString) :
    Listing → σ → Option WalkError × σ
  | .nil, s => (none, s)
  | .file name rest, s =>
    let r := walkFn (Join path name) (some ⟨false⟩) none s
    if r.1.isSome then r else walkNames walkFn path rest r.2
  | .bad name e rest, s =>
    let r := walkFn (Join path name) none (some e) s
    if r.1.isSome && r.1 != some .SkipDir then r else walkNames walkFn path rest r.2
  | .dir name readErr children rest, s =>
    let r := walkDir walkFn (Join path name) readErr
      (walkNames walkFn (Join path name) children) s
    if r.1.isSome && r.1 != some .SkipDir then r else walkNames walkFn path rest r.2

/-- The function `filepath.walk` on a directory. -/
def walk {σ : Type} (walkFn : WalkFunc σ) (path : GoString) (readErr : Option Errno)
    (children : Listing) (s : σ) : Option WalkError × σ :=
  walkDir walkFn path readErr (walkNames walkFn path children) s

/-- The function `filepath.Walk`: the root is passed to `walkFn` as it was given (not
cleaned), and a final `SkipDir` becomes nil. -/
def Walk {σ : Type} (walkFn : WalkFunc σ) (root : GoString) (st : Root) (s : σ) :
    Option WalkError × σ :=
  let r :=
    match st with
    | .missing e => walkFn root none (some e) s
    | .file => walkFn root (some ⟨false⟩) none s
    | .dir readErr children => walk walkFn root readErr children s
  if r.1 = some .SkipDir then (none, r.2) else r

/-- The condition of the `if` under the comment "ignore hidden dirs" in `watch`. -/
def ignoresDir (path : GoString) : Bool :=
  decide (path.length > 1) && hasPrefix (Base path) ['.'] && !hasPrefix (Base path) ['.', '.']

/-- The closure passed to `filepath.Walk` in `watch`; the state is the slice `paths`.
`Walk` never passes a nil `info` together with a nil `err`. -/
def collectDir : WalkFunc (List GoString) :=
  fun path info err paths =>
    match err with
    | some e => (some (.os e), paths)
    | none =>
      match info with
      | none => (none, paths)
      | some fi =>
        if !fi.isDir then (none, paths)
        else if ignoresDir path then (some .SkipDir, paths)
        else (none, paths ++ [path])

/-- The Watched Directory Set: the slice `paths` after the walk.  The error returned by
`filepath.Walk` is dropped, as in `watch`. -/
def watchedSet (root : GoString) (st : Root) : List GoString :=
  (Walk collectDir root st []).2

/-! ## Vocabulary for stating the properties of the walk -/

/-- The path `Walk` gives to the directory reached from `root` through `names`. -/
def pathAt (root : GoString) (names : List GoString) : GoString :=
  names.foldl Join root

/-- The listing contains a directory at the end of the chain `names` of entry names, each
directory before the last one being readable. -/
inductive HasDir : Listing → List GoString → Prop
  | here (name : GoString) (readErr : Option Errno) (children rest : Listing) :
      HasDir (.dir name readErr children rest) [name]
  | down (name : GoString) (children rest : Listing) (names : List GoString) :
      HasDir children names → HasDir (.dir name none children rest) (name :: names)
  | afterFile (name : GoString) (rest : Listing) (names : List GoString) :
      HasDir rest names → HasDir (.file name rest) names
  | afterBad (name : GoString) (e : Errno) (rest : Listing) (names : List GoString) :
      HasDir rest names → HasDir (.bad name e rest) names
  | afterDir (name : GoString) (readErr : Option Errno) (children rest : Listing)
      (names : List GoString) :
      HasDir rest names → HasDir (.dir name readErr children rest) names

/-- The watch root is a directory and `names` leads from it to a directory (the root itself
when `names` is empty). -/
inductive RootHasDir : Root → List GoString → Prop
  | root (readErr : Option Errno) (children : Listing) : RootHasDir (.dir readErr children) []
  | below (children : Listing) (names : List GoString) :
      HasDir children names → RootHasDir (.dir none children) names

/-- No `Lstat` and no `readDirNames` fails anywhere in the listing. -/
def Listing.readable : Listing → Bool
  | .nil => true
  | .file _ rest => rest.readable
  | .bad _ _ _ => false
  | .dir _ readErr children rest => readErr.isNone && children.readable && rest.readable

/-- No `Lstat` and no `readDirNames` fails at or below the root. -/
def Root.readable : Root → Bool
  | .missing _ => false
  | .file => true
  | .dir readErr children => readErr.isNone && children.readable

/-- A hidden directory in the words of the specification: the name begins with a dot and
is not the parent reference "..". -/
def isHiddenName (name : GoString) : Bool :=
  hasPrefix name ['.'] && name != ['.', '.']

/-- A name as `readDirNames` returns it: not empty, without separator, neither "." nor
"..". -/
def validName (name : GoString) : Bool :=
  name != [] && !name.contains '/' && name != ['.'] && name != ['.', '.']

/-- The path `res` has `name` as its last element. -/
def EndsWithElem (res name : GoString) : Prop :=
  res = name ∨ ∃ pre, res = pre ++ '/' :: name

/-- The string is empty or ends with a separator. -/
def EndsSlash (x : GoString) : Prop := x = [] ∨ x.getLast? = some '/'

/-- The invariant of the buffer of `Clean` on a rooted path: it starts with the separator
and `dotdot` is at least one. -/
def BufInv (rooted : Bool) (out : GoString) (dotdot : Nat) : Prop :=
  rooted = true → out.getLast? = some '/' ∧ 1 ≤ dotdot

/-- The tree of the scenario: `proj` holds `.git/HEAD` and `src/main.txt`. -/
def projTree : Root :=
  .dir none (.dir ".git".toList none (.file "HEAD".toList .nil)
    (.dir "src".toList none (.file "main.txt".toList .nil) .nil))

/-- A directory `..cache` with a subdirectory `sub`, and a directory `...`. -/
def cacheTree : Root :=
  .dir none (.dir "...".toList none .nil
    (.dir "..cache".toList none (.dir "sub".toList none .nil .nil) .nil))

/-- Three directories `a`, `b`, `c`, of which `b` cannot be read. -/
def unreadableTree : Root :=
  .dir none (.dir "a".toList none .nil
    (.dir "b".toList (some .EACCES) .nil (.dir "c".toList none .nil .nil)))

/-- The directory `proj` holds a hidden directory `.secret` that cannot be read and a
directory `src`. -/
def secretTree : Root :=
  .dir none (.dir ".secret".toList (some .EACCES) .nil (.dir "src".toList none .nil .nil))

/-! ## The running program -/

/-- The signals the program handles or sends. -/
inductive Signal
  | SIGINT | SIGTERM | SIGKILL
  deriving DecidableEq

/-- The unbuffered channels made in `main`: `updates`, `stopWatch`, `stopCmd`, `cmdDone`,
`watchDone` and `done`. -/
inductive Chan
  | updates | stopWatch | stopCmd | cmdDone | watchDone | done
  deriving DecidableEq

/-- The arguments of one call of `runCmd`. -/
structure RunArgs where
  cmd : GoString
  update : Chan
  stop : Chan
  done : Chan
  deriving DecidableEq

/-- The lines the program can log.  The `debug` lines are printed by `debugLog` only. -/
inductive LogMsg
  | runningCommand (cmd : GoString)
  | watching (path : GoString)
  | modifiedFile (name : GoString)
  | stoppingOn (sig : Signal)
  | fatal (e : Errno)
  | debugEvent (op : Nat) (name : GoString)
  | debugError (e : Errno)
  | debugUpdating
  | debugStopping
  | debugStoppingWatch
  deriving DecidableEq

/-- The result of `pty.Start`: the pid of the child, which leads a new session and so a new
process group with the same number, or an error. -/
inductive PtyResult
  | ok (pid : Nat)
  | error (e : Errno)
  deriving DecidableEq

/-- What the program does that can be seen from outside, in the order it happens. -/
inductive Effect
  | log (m : LogMsg)
  | ptyStart (cmd : GoString) (res : PtyResult)
  | kill (pid : Int) (sig : Signal) (err : Option Errno)
  | goRunCmd (args : RunArgs)
  | watcherAdd (path : GoString) (err : Option Errno)
  | sent (c : Chan)
  | panic (e : Errno)
  | exit (code : Nat)
  deriving DecidableEq

/-- The process runs or has ended with an exit status: 0 when `main` returns, 1 after
`log.Fatal`, 2 after a panic. -/
inductive Status
  | running
  | exited (code : Nat)
  deriving DecidableEq

/-- Where `main` stands after starting the goroutines: at `<-cmdDone`, at `<-watchDone`,
at `<-done`, or returned. -/
inductive MainPc
  | recvCmdDone | recvWatchDone | recvDone | returned
  deriving DecidableEq

/-- Where the signal goroutine of `main` stands in its loop. -/
inductive ShutPc
  | recvSig
  | sendStopWatch (sig : Signal)
  | sendStopCmd (sig : Signal)
  | logStopping (sig : Signal)
  | sendDone (sig : Signal)
  deriving DecidableEq

/-- Where `watch` stands: before the end of its setup, at `<-stop` with the registered
paths, at `done <- true`, or returned. -/
inductive WatchPc
  | setup
  | recvStop (watched : List GoString)
  | sendDone
  | returned
  deriving DecidableEq

/-- Where the event goroutine of `watch` stands: not started, in `select`, blocked in
`updates <- 1`, or returned. -/
inductive LoopPc
  | notStarted | selecting | sendUpdate | returned
  deriving DecidableEq

/-- The constant `fsnotify.Write` (`Create` is `1 << 0`, `Write` is `1 << 1`). -/
def fsnotifyWrite : Nat := 2

/-- The test `event.Op&fsnotify.Write == fsnotify.Write`. -/
def isWrite (op : Nat) : Bool := op &&& fsnotifyWrite == fsnotifyWrite

/-- The state of the process.
* `starting`: the calls `go runCmd(...)` that have not yet run `pty.Start`;
* `updateWaiters`, `stopWaiters`: the goroutines of `runCmd` blocked in `<-update` and
  `<-stop`, oldest first, with the arguments of their call and the pid of the child `c`
  they captured;
* `doneSenders`: the stop goroutines blocked in `done <- true`, with their channel;
* `children`: the pids of all children started so far, oldest first.  The program never
  calls `Wait`, so none of them is ever reaped and all these pids stay in use. -/
structure Sys where
  debug : Bool
  root : GoString
  status : Status
  main : MainPc
  shut : ShutPc
  sigs : Option Signal
  watch : WatchPc
  loop : LoopPc
  starting : List RunArgs
  updateWaiters : List (RunArgs × Nat)
  stopWaiters : List (RunArgs × Nat)
  doneSenders : List Chan
  children : List Nat
  trace : List Effect
  deriving DecidableEq

/-- The function `debugLog`. -/
def debugLog (debug : Bool) (m : LogMsg) : List Effect :=
  if debug then [.log m] else []

/-- The function `main` up to its first receive: the flags are parsed (`-debug`, `-w`, and
the arguments joined into `cmd`), the channels are made, `watch`, `runCmd` and the signal
goroutine are started, and `main` blocks in `<-cmdDone`. -/
def main (debug : Bool) (root cmd : GoString) : Sys :=
  { debug := debug, root := root, status := .running, main := .recvCmdDone, shut := .recvSig,
    sigs := none, watch := .setup, loop := .notStarted,
    starting := [⟨cmd, .updates, .stopCmd, .cmdDone⟩],
    updateWaiters := [], stopWaiters := [], doneSenders := [], children := [], trace := [] }

/-- The call `panic(err)` in a goroutine: the process ends with status 2. -/
def goPanic (s : Sys) (e : Errno) : Sys :=
  { s with status := .exited 2, trace := s.trace ++ [.panic e, .exit 2] }

/-- The call `log.Fatal(err)`: the error is logged and the process ends with status 1. -/
def logFatal (s : Sys) (e : Errno) : Sys :=
  { s with status := .exited 1, trace := s.trace ++ [.log (.fatal e), .exit 1] }

/-- The function `killCmd`: `syscall.Kill` with the negated pid of the child, that is its
whole process group, and SIGKILL; it returns the pid and the error of the call, which the
environment supplies. -/
def killCmd (pid : Nat) (killErr : Option Errno) : Effect × Nat × Option Errno :=
  (.kill (-(pid : Int)) .SIGKILL killErr, pid, killErr)

/-- The function `runCmd` from its first line to `io.Copy`: the command is logged and
started under a pseudo-terminal.  On an error `runCmd` returns it (every caller is a `go`
statement, which has no use for a result).  Otherwise the goroutine waiting on `update` and
the goroutine waiting on `stop` are started, both holding the child `c`.  The copying
between the terminal and the child is not part of the state.  `none`: the environment
cannot answer with the pid of a child that has not been reaped. -/
def runCmd (s : Sys) (a : RunArgs) (res : PtyResult) : Option Sys :=
  let s1 := { s with trace := s.trace ++ [.log (.runningCommand a.cmd), .ptyStart a.cmd res] }
  match res with
  | .error _ => some s1
  | .ok pid =>
    if pid ∈ s.children then none
    else some { s1 with children := s.children ++ [pid],
                        updateWaiters := s.updateWaiters ++ [(a, pid)],
                        stopWaiters := s.stopWaiters ++ [(a, pid)] }

/-- The first goroutine of `runCmd` after its `<-update`: `debugLog`, `killCmd`, a panic on
error, else `go runCmd(cmd, update, stop, done)` with the arguments of its own call. -/
def runCmdOnUpdate (s : Sys) (a : RunArgs) (pid : Nat) (killErr : Option Errno) : Sys :=
  let k := killCmd pid killErr
  let s1 := { s with trace := s.trace ++ debugLog s.debug .debugUpdating ++ [k.1] }
  match k.2.2 with
  | some e => goPanic s1 e
  | none => { s1 with starting := s1.starting ++ [a], trace := s1.trace ++ [.goRunCmd a] }

/-- The second goroutine of `runCmd` after its `<-stop`: `debugLog`, `killCmd`, a panic on
error, else the goroutine blocks in `done <- true`. -/
def runCmdOnStop (s : Sys) (a : RunArgs) (pid : Nat) (killErr : Option Errno) : Sys :=
  let k := killCmd pid killErr
  let s1 := { s with trace := s.trace ++ debugLog s.debug .debugStopping ++ [k.1] }
  match k.2.2 with
  | some e => goPanic s1 e
  | none => { s1 with doneSenders := s1.doneSenders ++ [a.done] }

/-- The loop `for _, path := range paths` of `watch`: each path is logged and added to the
watcher, and the first failure is returned. -/
def registerAll (addErr : GoString → Option Errno) : List GoString → List Effect × Option Errno
  | [] => ([], none)
  | p :: ps =>
    match addErr p with
    | some e => ([.log (.watching p), .watcherAdd p (some e)], some e)
    | none =>
      let r := registerAll addErr ps
      (.log (.watching p) :: .watcherAdd p none :: r.1, r.2)

/-- The function `watch` up to its `<-stop`: `fsnotify.NewWatcher` (fatal on error), the
start of the event goroutine, the walk (whose returned error is not looked at), and the
registration of the collected paths (fatal on the first error). -/
def watch (s : Sys) (newWatcherErr : Option Errno) (st : Root)
    (addErr : GoString → Option Errno) : Sys :=
  match newWatcherErr with
  | some e => logFatal s e
  | none =>
    let paths := (Walk collectDir s.root st []).2
    let r := registerAll addErr paths
    let s1 := { s with loop := .selecting, trace := s.trace ++ r.1 }
    match r.2 with
    | some e => logFatal s1 e
    | none => { s1 with watch := .recvStop paths }

/-- The case `event, ok := <-watcher.Events` of the event goroutine of `watch`, with `ok`
true: after `debugLog`, an event whose `Op` contains `Write` is logged and the goroutine goes
to `updates <- 1`; any other event leaves it in the `select`. -/
def watchEvent (s : Sys) (op : Nat) (name : GoString) : Sys :=
  let s1 := { s with trace := s.trace ++ debugLog s.debug (.debugEvent op name) }
  if isWrite op then
    { s1 with loop := .sendUpdate, trace := s1.trace ++ [.log (.modifiedFile name)] }
  else s1

/-- The case `err, ok := <-watcher.Errors` of the event goroutine, with `ok` true: only
`debugLog`. -/
def watchError (s : Sys) (e : Errno) : Sys :=
  { s with trace := s.trace ++ debugLog s.debug (.debugError e) }

/-- What can happen next: a goroutine runs up to its next blocking operation, with the
answers of the environment (file system, `pty.Start`, `kill`) and, where several goroutines
wait on a channel, the index of the one that receives.
* `watchSetup`: `watch` runs up to `<-stop`;
* `ptyStart j res`: the `j`-th pending `runCmd` runs up to `io.Copy`;
* `fsEvent`, `fsError`: the event goroutine takes one value from `watcher.Events` or
  `watcher.Errors`;
* `osSignal`, `recvSig`: a signal is put into the buffered channel `sigs` (and dropped when
  the buffer is full); the signal goroutine takes it;
* `deliverUpdate i killErr`: `updates <- 1` meets the `<-update` of the `i`-th waiting
  goroutine, which runs to its end;
* `deliverStopWatch`: `stopWatch <- true` meets `<-stop` in `watch`;
* `deliverStopCmd i killErr`: `stopCmd <- true` meets the `<-stop` of the `i`-th waiting
  goroutine, which runs up to `done <- true`;
* `logStopping`: the signal goroutine logs and reaches `done <- true`;
* `deliverCmdDone i`, `deliverWatchDone`, `deliverDone`: a `done <- true` meets the
  matching receive of `main`; after the last one `main` returns. -/
inductive Label
  | watchSetup (newWatcherErr : Option Errno) (st : Root) (addErr : GoString → Option Errno)
  | ptyStart (j : Nat) (res : PtyResult)
  | fsEvent (op : Nat) (name : GoString)
  | fsError (e : Errno)
  | osSignal (sig : Signal)
  | recvSig
  | deliverUpdate (i : Nat) (killErr : Option Errno)
  | deliverStopWatch
  | deliverStopCmd (i : Nat) (killErr : Option Errno)
  | logStopping
  | deliverCmdDone (i : Nat)
  | deliverWatchDone
  | deliverDone

/-- One step of the process.  `none` means that the step cannot happen in this state: the
process has ended, or the goroutines concerned do not stand at the matching operations.
The three receives of `main` and the loop of its signal goroutine are written out here. -/
def step (s : Sys) (l : Label) : Option Sys :=
  if s.status ≠ .running then none else
  match l with
  | .watchSetup newWatcherErr st addErr =>
    if s.watch = .setup then some (watch s newWatcherErr st addErr) else none
  | .ptyStart j res =>
    match s.starting[j]? with
    | none => none
    | some a => runCmd { s with starting := s.starting.eraseIdx j } a res
  | .fsEvent op name =>
    if s.loop = .selecting then some (watchEvent s op name) else none
  | .fsError e =>
    if s.loop = .selecting then some (watchError s e) else none
  | .osSignal sig =>
    if sig = .SIGKILL then none
    else some { s with sigs := if s.sigs.isNone then some sig else s.sigs }
  | .recvSig =>
    match s.shut, s.sigs with
    | .recvSig, some sig => some { s with shut := .sendStopWatch sig, sigs := none }
    | _, _ => none
  | .deliverUpdate i killErr =>
    match s.loop, s.updateWaiters[i]? with
    | .sendUpdate, some (a, pid) =>
      if a.update = .updates then
        some (runCmdOnUpdate
          { s with loop := .selecting, updateWaiters := s.updateWaiters.eraseIdx i,
                   trace := s.trace ++ [.sent .updates] } a pid killErr)
      else none
    | _, _ => none
  | .deliverStopWatch =>
    match s.shut, s.watch with
    | .sendStopWatch sig, .recvStop _ =>
      some { s with shut := .sendStopCmd sig, watch := .sendDone,
                    trace := s.trace ++ [.sent .stopWatch] ++ debugLog s.debug .debugStoppingWatch }
    | _, _ => none
  | .deliverStopCmd i killErr =>
    match s.shut, s.stopWaiters[i]? with
    | .sendStopCmd sig, some (a, pid) =>
      if a.stop = .stopCmd then
        some (runCmdOnStop
          { s with shut := .logStopping sig, stopWaiters := s.stopWaiters.eraseIdx i,
                   trace := s.trace ++ [.sent .stopCmd] } a pid killErr)
      else none
    | _, _ => none
  | .logStopping =>
    match s.shut with
    | .logStopping sig =>
      some { s with shut := .sendDone sig, trace := s.trace ++ [.log (.stoppingOn sig)] }
    | _ => none
  | .deliverCmdDone i =>
    match s.main, s.doneSenders[i]? with
    | .recvCmdDone, some .cmdDone =>
      some { s with main := .recvWatchDone, doneSenders := s.doneSenders.eraseIdx i,
                    trace := s.trace ++ [.sent .cmdDone] }
    | _, _ => none
  | .deliverWatchDone =>
    match s.main, s.watch with
    | .recvWatchDone, .sendDone =>
      some { s with main := .recvDone, watch := .returned,
                    loop := if s.loop = .selecting then .returned else s.loop,
                    trace := s.trace ++ [.sent .watchDone] }
    | _, _ => none
  | .deliverDone =>
    match s.main, s.shut with
    | .recvDone, .sendDone _ =>
      some { s with main := .returned, shut := .recvSig, status := .exited 0,
                    trace := s.trace ++ [.sent .done, .exit 0] }
    | _, _ => none

/-- A sequence of steps. -/
def run (s : Sys) : List Label → Option Sys
  | [] => some s
  | l :: ls =>
    match step s l with
    | none => none
    | some s1 => run s1 ls

/-! ## Vocabulary for stating the properties of the running program -/

/-- The channel of a completed send that `main` received. -/
def mainRecv : Effect → Option Chan
  | .sent .cmdDone => some .cmdDone
  | .sent .watchDone => some .watchDone
  | .sent .done => some .done
  | _ => none

/-- The values `main` has received, in order. -/
def mainRecvs (t : List Effect) : List Chan := t.filterMap mainRecv

/-- Where `main` stands agrees with what it has received, and the process has not ended
with status 0 before `main` returned. -/
def MainInv (s : Sys) : Prop :=
  match s.main with
  | .recvCmdDone => mainRecvs s.trace = [] ∧ s.status ≠ .exited 0
  | .recvWatchDone => mainRecvs s.trace = [.cmdDone] ∧ s.status ≠ .exited 0
  | .recvDone => mainRecvs s.trace = [.cmdDone, .watchDone] ∧ s.status ≠ .exited 0
  | .returned => mainRecvs s.trace = [.cmdDone, .watchDone, .done]

/-- The number of completed sends on a channel. -/
def sentCount (c : Chan) (t : List Effect) : Nat := t.count (.sent c)

/-- One when the event goroutine is blocked in `updates <- 1`, zero otherwise. -/
def pendingSend : LoopPc → Nat
  | .sendUpdate => 1
  | _ => 0

/-- The step hands the event goroutine an event whose `Op` has the `Write` bit (bit 1). -/
def isWriteEvent : Label → Bool
  | .fsEvent op _ => op.testBit 1
  | _ => false

/-- Before `watch` has finished its setup the event goroutine is not running. -/
def LoopIdleBeforeSetup (s : Sys) : Prop :=
  s.status = .running → s.watch = .setup → s.loop = .notStarted

/-- The arguments of the call `go runCmd(cmd, updates, stopCmd, cmdDone)` in `main`. -/
def mainArgs (cmd : GoString) : RunArgs := ⟨cmd, .updates, .stopCmd, .cmdDone⟩

/-- Every call of `runCmd` has the arguments of the first one, and every child captured by
a waiting goroutine has been started and not reaped. -/
def RunnerInv (cmd : GoString) (s : Sys) : Prop :=
  (∀ a ∈ s.starting, a = mainArgs cmd) ∧
  (∀ x ∈ s.updateWaiters, x.1 = mainArgs cmd ∧ x.2 ∈ s.children) ∧
  (∀ x ∈ s.stopWaiters, x.1 = mainArgs cmd ∧ x.2 ∈ s.children) ∧
  (∀ c ∈ s.doneSenders, c = .cmdDone)

/-- The active Running Command Handle: the child started last. -/
def activeChild (s : Sys) : Option Nat := s.children.getLast?

/-- The first argument of every `syscall.Kill` made so far. -/
def killTargets (t : List Effect) : List Int :=
  t.filterMap fun e => match e with
    | .kill pid _ _ => some pid
    | _ => none

/-- The state after a sequence of steps from the start (the start itself when the sequence
cannot happen). -/
def stateAfter (root cmd : GoString) (ls : List Label) : Sys :=
  (run (main false root cmd) ls).getD (main false root cmd)

/-- The setup of `watch` on an empty, readable directory. -/
def okSetup : Label := .watchSetup none (.dir none .nil) (fun _ => none)

/-- The command starts as child 100 and a write event arrives. -/
def writeSeen : List Label :=
  [okSetup, .ptyStart 0 (.ok 100), .fsEvent 2 "main.go".toList]

/-- One restart (child 100 replaced by child 101), then SIGINT; the stop is received by the
goroutine that was started first. -/
def staleStopRun : List Label :=
  writeSeen ++ [.deliverUpdate 0 none, .ptyStart 0 (.ok 101), .osSignal .SIGINT, .recvSig,
    .deliverStopWatch, .deliverStopCmd 0 none, .logStopping, .deliverCmdDone 0,
    .deliverWatchDone, .deliverDone]

/-- No restart: the command starts as child 100, then SIGTERM and the full shutdown. -/
def plainShutdown : List Label :=
  [okSetup, .ptyStart 0 (.ok 100), .osSignal .SIGTERM, .recvSig, .deliverStopWatch,
   .deliverStopCmd 0 none, .logStopping, .deliverCmdDone 0, .deliverWatchDone, .deliverDone]

/-- Five values for the event goroutine: a write, a chmod, an error, a create combined with a
write, a remove; the restarts are delivered in between. -/
def mixedEvents : List Label :=
  writeSeen ++ [.deliverUpdate 0 none, .fsEvent 16 "a".toList, .fsError .EACCES,
    .ptyStart 0 (.ok 101), .fsEvent 3 "b".toList, .deliverUpdate 0 none,
    .fsEvent 4 "c".toList]

/-- The command starts as child 100, SIGINT arrives and `watch` has been told to stop; the
signal goroutine offers the stop to the runner. -/
def stopPending : List Label :=
  [okSetup, .ptyStart 0 (.ok 100), .osSignal .SIGINT, .recvSig, .deliverStopWatch]

/-- The failure of `pty.Start` at startup, followed by SIGINT. -/
def ptyFailsAtStart : List Label :=
  [.ptyStart 0 (.error .ENOENT), okSetup, .osSignal .SIGINT, .recvSig, .deliverStopWatch]

/-- The failure of `pty.Start` on a restart. -/
def ptyFailsOnRestart : List Label :=
  writeSeen ++ [.deliverUpdate 0 none, .ptyStart 0 (.error .ENOENT)]

/-! ## Lemmas on `Base`, `Clean` and `Join` -/

theorem takeWhile_append_of_stop {α : Type} (p : α → Bool) (x y : List α)
    (h : ∃ a ∈ x, p a = false) :
    (x ++ y).takeWhile p = x.takeWhile p ∧ (x ++ y).dropWhile p = x.dropWhile p ++ y := by
  induction x with
  | nil => simp at h
  | cons c x ih =>
    cases hc : p c with
    | false => simp [List.takeWhile, List.dropWhile, hc]
    | true =>
      have h2 : ∃ a ∈ x, p a = false := by
        obtain ⟨a, ha, hpa⟩ := h
        rcases List.mem_cons.1 ha with h1 | h1
        · subst h1; simp [hc] at hpa
        · exact ⟨a, h1, hpa⟩
      simp [List.takeWhile, List.dropWhile, hc, ih h2]

theorem base_of_endsWithElem (res name : GoString) (hne : name ≠ [])
    (hns : '/' ∉ name) (h : EndsWithElem res name) : Base res = name := by
  have hrevne : name.reverse ≠ [] := by simpa using hne
  have hall : ∀ c ∈ name.reverse, isPathSeparator c = false := by
    intro c hc
    have : c ∈ name := by simpa using hc
    simp only [isPathSeparator, beq_eq_false_iff_ne, ne_eq]
    intro h1; subst h1; exact hns this
  obtain ⟨c, t, hct⟩ := List.exists_cons_of_ne_nil hrevne
  have hc : isPathSeparator c = false := hall c (by rw [hct]; simp)
  have htake : ∀ rest, (name.reverse ++ rest).takeWhile (fun c => !isPathSeparator c) =
      name.reverse ++ rest.takeWhile (fun c => !isPathSeparator c) := by
    intro rest
    rw [List.takeWhile_append_of_pos]
    intro a ha
    simp [hall a ha]
  rcases h with h | ⟨pre, h⟩
  · subst h
    unfold Base
    simp only [hne, if_false]
    have hd : res.reverse.dropWhile isPathSeparator = res.reverse := by
      rw [hct]; simp [List.dropWhile, hc]
    rw [hd]
    have := htake []
    simp only [List.append_nil, List.takeWhile_nil] at this
    rw [this]
    simp [hne]
  · subst h
    unfold Base
    have hne2 : pre ++ '/' :: name ≠ [] := by simp
    simp only [hne2, if_false]
    have hrev : (pre ++ '/' :: name).reverse = name.reverse ++ '/' :: pre.reverse := by simp
    rw [hrev]
    have hd : (name.reverse ++ '/' :: pre.reverse).dropWhile isPathSeparator =
        name.reverse ++ '/' :: pre.reverse := by
      rw [hct]; simp [List.dropWhile, hc]
    rw [hd, htake]
    simp [List.takeWhile, isPathSeparator, hne]

theorem cleanLoop_nil (rooted : Bool) (fuel : Nat) (out : GoString) (dd : Nat) :
    cleanLoop rooted fuel [] out dd = out.reverse := by
  cases fuel <;> simp [cleanLoop]

theorem cleanLoop_fuel (rooted : Bool) : ∀ (fuel k : Nat) (rest out : GoString) (dd : Nat),
    rest.length ≤ fuel →
    cleanLoop rooted (fuel + k) rest out dd = cleanLoop rooted fuel rest out dd := by
  intro fuel
  induction fuel with
  | zero =>
    intro k rest out dd h
    have : rest = [] := List.length_eq_zero.1 (Nat.le_zero.1 h)
    subst this
    simp [cleanLoop_nil]
  | succ n ih =>
    intro k rest out dd h
    cases rest with
    | nil => simp [cleanLoop_nil]
    | cons c r =>
      have hr : r.length ≤ n := by simpa using h
      have hrt : r.tail.length ≤ n := by
        have := List.length_tail r
        omega
      have hk : n + 1 + k = (n + k) + 1 := by omega
      rw [hk]
      simp only [cleanLoop]
      split
      · exact ih k r out dd hr
      · rename_i hsep
        split
        · exact ih k r out dd hr
        · split
          · split
            · exact ih k _ _ dd hrt
            · split
              · exact ih k _ _ _ hrt
              · exact ih k _ _ dd hrt
          · apply ih
            have hd : (c :: r).dropWhile (fun x => !isPathSeparator x) =
                r.dropWhile (fun x => !isPathSeparator x) := by
              simp [List.dropWhile, hsep]
            rw [hd]
            exact le_trans (List.dropWhile_suffix _).length_le hr

/-- The unit tests of `Base` and `Clean` in the Go distribution, in part. -/
theorem base_clean_examples :
    Base [] = ['.'] ∧ Base ['.'] = ['.'] ∧ Base "/.".toList = ['.'] ∧ Base ['/'] = ['/'] ∧
    Base "////".toList = ['/'] ∧ Base "x/".toList = ['x'] ∧ Base "abc/def".toList = "def".toList ∧
    Base "a/b/.x".toList = ".x".toList ∧ Base "a/b/c.".toList = "c.".toList ∧
    Clean [] = ['.'] ∧ Clean "abc/def".toList = "abc/def".toList ∧ Clean "..".toList = "..".toList ∧
    Clean "../../abc".toList = "../../abc".toList ∧ Clean ['/'] = ['/'] ∧
    Clean "abc/def/".toList = "abc/def".toList ∧ Clean "./".toList = ['.'] ∧
    Clean "abc//def//ghi".toList = "abc/def/ghi".toList ∧ Clean "//abc//".toList = "/abc".toList ∧
    Clean "/./abc/def".toList = "/abc/def".toList ∧ Clean "abc/.".toList = "abc".toList ∧
    Clean "abc/def/../ghi/../jkl".toList = "abc/jkl".toList ∧
    Clean "abc/def/../..".toList = ['.'] ∧ Clean "/abc/def/../..".toList = ['/'] ∧
    Clean "abc/def/../../..".toList = "..".toList ∧
    Clean "/abc/def/../../..".toList = ['/'] ∧
    Clean "abc/def/../../../ghi/jkl/../../../mno".toList = "../../mno".toList ∧
    Clean "/../abc".toList = "/abc".toList ∧ Clean "abc//./../def".toList = "def".toList ∧
    Clean "abc/../../././../def".toList = "../../def".toList ∧
    Join "./proj".toList "src".toList = "proj/src".toList ∧
    Join ['.'] "src".toList = "src".toList ∧ Join ['/'] "src".toList = "/src".toList ∧
    Join "a/b".toList ".git".toList = "a/b/.git".toList := by
  decide

theorem validName_spec (name : GoString) (hv : validName name = true) :
    name ≠ [] ∧ '/' ∉ name ∧ name ≠ ['.'] ∧ name ≠ ['.', '.'] := by
  simpa [validName, and_assoc] using hv

theorem atElemEnd_false_of_mem (r : GoString) (hne : r ≠ []) (hns : '/' ∉ r) :
    atElemEnd r = false := by
  cases r with
  | nil => exact absurd rfl hne
  | cons c t =>
    have : c ≠ '/' := fun h => hns (by simp [h])
    simp [atElemEnd, isPathSeparator, this]

theorem cleanLoop_name (rooted : Bool) (name : GoString) (hv : validName name = true)
    (fuel : Nat) (out : GoString) (dd : Nat) (hf : name.length ≤ fuel)
    (hinv : BufInv rooted out dd) :
    EndsWithElem (cleanLoop rooted fuel name out dd) name := by
  obtain ⟨hne, hns, hdot, hdd⟩ := validName_spec name hv
  cases fuel with
  | zero => simp at hf; exact absurd hf hne
  | succ n =>
    cases hname : name with
    | nil => exact absurd hname hne
    | cons c r =>
      rw [hname] at hns hdot hdd
      have hc : isPathSeparator c = false := by
        have : c ≠ '/' := fun h => hns (by simp [h])
        simp [isPathSeparator, this]
      have h2 : (c == '.' && atElemEnd r) = false := by
        by_cases hr : r = []
        · subst hr
          have : c ≠ '.' := fun h => hdot (by simp [h])
          simp [this]
        · have := atElemEnd_false_of_mem r hr (fun h => hns (by simp [h]))
          simp [this]
      have h3 : (c == '.' && r.head? == some '.' && atElemEnd r.tail) = false := by
        cases r with
        | nil => simp
        | cons c2 t =>
          by_cases ht : t = []
          · subst ht
            by_cases h1 : c = '.'
            · have : c2 ≠ '.' := fun h => hdd (by simp [h1, h])
              simp [this]
            · simp [h1]
          · have := atElemEnd_false_of_mem t ht (fun h => hns (by simp [h]))
            simp [this]
      have hall : ∀ a ∈ c :: r, (!isPathSeparator a) = true := by
        intro a ha
        have : a ≠ '/' := fun h => hns (h ▸ ha)
        simp [isPathSeparator, this]
      have htw : (c :: r).takeWhile (fun x => !isPathSeparator x) = c :: r :=
        List.takeWhile_eq_self_iff.2 hall
      have hdw : (c :: r).dropWhile (fun x => !isPathSeparator x) = [] :=
        List.dropWhile_eq_nil_iff.2 hall
      simp only [cleanLoop, hc, h2, h3, Bool.false_eq_true, if_false, htw, hdw, cleanLoop_nil,
        List.reverse_append, List.reverse_reverse]
      split
      · right
        exact ⟨out.reverse, by simp⟩
      · rename_i hcond
        cases rooted with
        | true =>
          have hlen : out.length = 1 := by simpa using hcond
          obtain ⟨hl, _⟩ := hinv rfl
          obtain ⟨a, ha⟩ := List.length_eq_one.1 hlen
          subst ha
          simp at hl
          subst hl
          right
          exact ⟨[], by simp⟩
        | false =>
          have hlen : out = [] := by simpa using hcond
          subst hlen
          left
          simp

theorem getLast?_cons_of_ne_nil {α : Type} (c : α) (r : List α) (h : r ≠ []) :
    (c :: r).getLast? = r.getLast? := by
  cases r with
  | nil => exact absurd rfl h
  | cons a t => simp [List.getLast?_cons_cons]

theorem dropWhile_getLast (x : GoString) (h : x.getLast? = some '/') :
    (x.dropWhile (fun c => !isPathSeparator c)).getLast? = some '/' := by
  induction x with
  | nil => simp at h
  | cons c r ih =>
    by_cases hc : isPathSeparator c = true
    · simp [List.dropWhile, hc, h]
    · have hc2 : c ≠ '/' := by simpa [isPathSeparator] using hc
      have hr : r ≠ [] := by
        intro hr; subst hr; simp at h; exact hc2 h
      rw [getLast?_cons_of_ne_nil c r hr] at h
      simp only [List.dropWhile, hc, Bool.not_false]
      exact ih h

theorem backtrack_getLast (dd : Nat) (out : GoString) (h : out.getLast? = some '/')
    (h1 : 1 ≤ dd) (h2 : dd < out.length) : (backtrack dd out).getLast? = some '/' := by
  induction out with
  | nil => simp at h
  | cons c r ih =>
    have hr : r ≠ [] := by
      intro hr; subst hr; simp at h2; omega
    rw [getLast?_cons_of_ne_nil c r hr] at h
    unfold backtrack
    split
    · rename_i hcond
      have : dd < r.length := by
        simp only [Bool.and_eq_true, decide_eq_true_eq] at hcond
        exact hcond.1
      exact ih h this
    · exact h

theorem cleanLoop_ends (rooted : Bool) (name : GoString) (hv : validName name = true) :
    ∀ (fuel : Nat) (x out : GoString) (dd : Nat), EndsSlash x → (x ++ name).length ≤ fuel →
      BufInv rooted out dd → EndsWithElem (cleanLoop rooted fuel (x ++ name) out dd) name := by
  obtain ⟨hne, hns, hdot, hdd⟩ := validName_spec name hv
  intro fuel
  induction fuel with
  | zero =>
    intro x out dd _ hf _
    have : x ++ name = [] := List.length_eq_zero.1 (Nat.le_zero.1 hf)
    simp at this
    exact absurd this.2 hne
  | succ n ih =>
    intro x out dd hx hf hinv
    cases x with
    | nil => exact cleanLoop_name rooted name hv (n + 1) out dd (by simpa using hf) hinv
    | cons c x1 =>
      have hf1 : (x1 ++ name).length ≤ n := by simp at hf ⊢; omega
      by_cases hsep : isPathSeparator c = true
      · have hx1 : EndsSlash x1 := by
          by_cases hx1 : x1 = []
          · exact Or.inl hx1
          · right
            rcases hx with hx | hx
            · cases hx
            · rwa [getLast?_cons_of_ne_nil c x1 hx1] at hx
        simp only [List.cons_append, cleanLoop, hsep, if_true]
        exact ih x1 out dd hx1 hf1 hinv
      · have hc2 : c ≠ '/' := by simpa [isPathSeparator] using hsep
        have hx1ne : x1 ≠ [] := by
          intro h; subst h
          rcases hx with hx | hx
          · cases hx
          · simp at hx; exact hc2 hx
        have hx1 : x1.getLast? = some '/' := by
          rcases hx with hx | hx
          · cases hx
          · rwa [getLast?_cons_of_ne_nil c x1 hx1ne] at hx
        simp only [List.cons_append, cleanLoop, hsep, Bool.false_eq_true, if_false,
          List.append_eq]
        split
        · exact ih x1 out dd (Or.inr hx1) hf1 hinv
        · split
          · rename_i h3
            obtain ⟨c2, x2, hx2⟩ := List.exists_cons_of_ne_nil hx1ne
            subst hx2
            have hx2ne : x2 ≠ [] := by
              intro h; subst h
              simp only [List.getLast?_singleton, Option.some.injEq] at hx1
              subst hx1
              simp [atElemEnd, hne] at h3
            have hx2l : x2.getLast? = some '/' := by
              rwa [getLast?_cons_of_ne_nil c2 x2 hx2ne] at hx1
            have hf2 : (x2 ++ name).length ≤ n := by simp at hf1 ⊢; omega
            try simp only [List.cons_append, List.tail_cons]
            split
            · rename_i hlt
              refine ih x2 _ dd (Or.inr hx2l) hf2 ?_
              intro hr
              obtain ⟨hl, hd1⟩ := hinv hr
              exact ⟨backtrack_getLast dd out hl hd1 hlt, hd1⟩
            · split
              · rename_i hnr
                refine ih x2 _ _ (Or.inr hx2l) hf2 ?_
                intro hr
                simp [hr] at hnr
              · exact ih x2 out dd (Or.inr hx2l) hf2 hinv
          · have hstop : ∃ a ∈ c :: x1, (fun x => !isPathSeparator x) a = false := by
              refine ⟨'/', ?_, by simp [isPathSeparator]⟩
              have := List.mem_of_getLast?_eq_some hx1
              exact List.mem_cons_of_mem _ this
            obtain ⟨ht, hd⟩ := takeWhile_append_of_stop (fun x => !isPathSeparator x)
              (c :: x1) name hstop
            have hcons : c :: (x1 ++ name) = (c :: x1) ++ name := rfl
            simp only [hcons, ht, hd]
            have hdc : (c :: x1).dropWhile (fun x => !isPathSeparator x) =
                x1.dropWhile (fun x => !isPathSeparator x) := by
              simp [List.dropWhile, hsep]
            rw [hdc]
            refine ih _ _ dd (Or.inr (dropWhile_getLast x1 hx1)) ?_ ?_
            · have := (List.dropWhile_suffix (fun x => !isPathSeparator x) (l := x1)).length_le
              simp only [List.length_append] at hf1 ⊢
              omega
            · intro hr
              obtain ⟨hl, hd1⟩ := hinv hr
              refine ⟨?_, hd1⟩
              have hone : out ≠ [] := by intro h; subst h; simp at hl
              split
              · rw [List.getLast?_append_of_ne_nil _ (by simp)]
                rw [getLast?_cons_of_ne_nil _ _ hone]
                exact hl
              · rw [List.getLast?_append_of_ne_nil _ hone]
                exact hl

theorem endsWithElem_ne_nil (res name : GoString) (hne : name ≠ [])
    (h : EndsWithElem res name) : res ≠ [] ∧ name.length ≤ res.length := by
  rcases h with h | ⟨pre, h⟩
  · subst h; exact ⟨hne, le_refl _⟩
  · subst h; exact ⟨by simp, by simp; omega⟩

theorem clean_ends (x name : GoString) (hv : validName name = true) (hx : EndsSlash x) :
    EndsWithElem (Clean (x ++ name)) name := by
  obtain ⟨hne, hns, _, _⟩ := validName_spec name hv
  have key : ∀ res, EndsWithElem res name →
      EndsWithElem (if res = [] then ['.'] else res) name := by
    intro res h
    simp [(endsWithElem_ne_nil res name hne h).1, h]
  cases x with
  | nil =>
    cases hname : name with
    | nil => exact absurd hname hne
    | cons c r =>
      have hc : isPathSeparator c = false := by
        have : c ≠ '/' := fun h => hns (by simp [hname, h])
        simp [isPathSeparator, this]
      simp only [List.nil_append, Clean, hc, Bool.false_eq_true, if_false]
      rw [← hname]
      apply key
      have := cleanLoop_ends false name hv (r.length + 1) [] [] 0 (Or.inl rfl)
        (by simp [hname]) (by intro h; cases h)
      simpa using this
  | cons c x1 =>
    simp only [List.cons_append, Clean]
    by_cases hsep : isPathSeparator c = true
    · simp only [hsep, if_true]
      apply key
      have hx1 : EndsSlash x1 := by
        by_cases h1 : x1 = []
        · exact Or.inl h1
        · right
          rcases hx with hx | hx
          · cases hx
          · rwa [getLast?_cons_of_ne_nil c x1 h1] at hx
      exact cleanLoop_ends true name hv _ x1 ['/'] 1 hx1 (le_refl _)
        (by intro _; exact ⟨rfl, le_refl _⟩)
    · simp only [hsep, Bool.false_eq_true, if_false]
      apply key
      have := cleanLoop_ends false name hv ((x1 ++ name).length + 1) (c :: x1) [] 0 hx
        (by simp) (by intro h; cases h)
      simpa using this

theorem base_join (dir name : GoString) (hv : validName name = true) :
    Base (Join dir name) = name ∧ name.length ≤ (Join dir name).length := by
  obtain ⟨hne, hns, _, _⟩ := validName_spec name hv
  have h : EndsWithElem (Join dir name) name := by
    unfold Join
    by_cases hd : dir = []
    · simp only [hd, ne_eq, not_true_eq_false, if_false, hne, not_false_eq_true, if_true]
      simpa using clean_ends [] name hv (Or.inl rfl)
    · simp only [ne_eq, hd, not_false_eq_true, if_true]
      have := clean_ends (dir ++ ['/']) name hv (Or.inr (by simp))
      simpa using this
  exact ⟨base_of_endsWithElem _ name hne hns h, (endsWithElem_ne_nil _ name hne h).2⟩

theorem ignoresDir_join (dir name : GoString) (hv : validName name = true) :
    ignoresDir (Join dir name) = (hasPrefix name ['.'] && !hasPrefix name ['.', '.']) := by
  obtain ⟨hb, hl⟩ := base_join dir name hv
  obtain ⟨hne, _, hdot, _⟩ := validName_spec name hv
  unfold ignoresDir
  rw [hb]
  cases h1 : hasPrefix name ['.'] with
  | false => simp
  | true =>
    have : 1 < (Join dir name).length := by
      cases hname : name with
      | nil => exact absurd hname hne
      | cons c t =>
        cases t with
        | nil =>
          rw [hname] at h1 hdot
          simp [hasPrefix] at h1
          exact absurd (by rw [h1]) hdot
        | cons c2 t2 => rw [hname] at hl; simp at hl; omega
    simp [this]

/-! ## Lemmas on the walk -/

theorem collectDir_file (path : GoString) (ps : List GoString) :
    collectDir path (some ⟨false⟩) none ps = (none, ps) := by
  simp [collectDir]

theorem collectDir_err (path : GoString) (info : Option FileInfo) (e : Errno)
    (ps : List GoString) :
    collectDir path info (some e) ps = (some (.os e), ps) := by
  simp [collectDir]

theorem collectDir_dir (path : GoString) (ps : List GoString) :
    collectDir path (some ⟨true⟩) none ps =
      if ignoresDir path then (some .SkipDir, ps) else (none, ps ++ [path]) := by
  simp [collectDir]

theorem walkNames_file (path name : GoString) (rest : Listing) (ps : List GoString) :
    walkNames collectDir path (.file name rest) ps = walkNames collectDir path rest ps := by
  simp [walkNames, collectDir_file]

theorem walkNames_bad (path name : GoString) (e : Errno) (rest : Listing)
    (ps : List GoString) :
    walkNames collectDir path (.bad name e rest) ps = (some (.os e), ps) := by
  simp [walkNames, collectDir_err]

theorem walkNames_unreadable (path name : GoString) (e : Errno) (children rest : Listing)
    (ps : List GoString) :
    walkNames collectDir path (.dir name (some e) children rest) ps = (some (.os e), ps) := by
  simp [walkNames, walkDir, collectDir_err]

theorem walkNames_ignored (path name : GoString) (children rest : Listing)
    (ps : List GoString) (h : ignoresDir (Join path name) = true) :
    walkNames collectDir path (.dir name none children rest) ps =
      walkNames collectDir path rest ps := by
  simp [walkNames, walkDir, collectDir_dir, h]

theorem walkNames_entered (path name : GoString) (children rest : Listing)
    (ps : List GoString) (h : ignoresDir (Join path name) = false) :
    walkNames collectDir path (.dir name none children rest) ps =
      (let r := walkNames collectDir (Join path name) children (ps ++ [Join path name])
       if r.1.isSome && r.1 != some .SkipDir then r
       else walkNames collectDir path rest r.2) := by
  simp [walkNames, walkDir, collectDir_dir, h]

theorem walkNames_mono (l : Listing) : ∀ (path : GoString) (ps : List GoString) (q : GoString),
    q ∈ ps → q ∈ (walkNames collectDir path l ps).2 := by
  induction l with
  | nil => intro path ps q h; simpa [walkNames] using h
  | file name rest ih => intro path ps q h; rw [walkNames_file]; exact ih path ps q h
  | bad name e rest _ => intro path ps q h; rw [walkNames_bad]; exact h
  | dir name readErr children rest ihc ihr =>
    intro path ps q h
    cases readErr with
    | some e => rw [walkNames_unreadable]; exact h
    | none =>
      cases hi : ignoresDir (Join path name) with
      | true => rw [walkNames_ignored _ _ _ _ _ hi]; exact ihr path ps q h
      | false =>
        rw [walkNames_entered _ _ _ _ _ hi]
        have h1 := ihc (Join path name) (ps ++ [Join path name]) q (by simp [h])
        dsimp only
        split
        · exact h1
        · exact ihr _ _ _ h1

theorem walkNames_readable (l : Listing) : ∀ (path : GoString) (ps : List GoString),
    l.readable = true → (walkNames collectDir path l ps).1 = none := by
  induction l with
  | nil => intro path ps _; simp [walkNames]
  | file name rest ih =>
    intro path ps h; rw [walkNames_file]; exact ih path ps (by simpa [Listing.readable] using h)
  | bad name e rest _ => intro path ps h; simp [Listing.readable] at h
  | dir name readErr children rest ihc ihr =>
    intro path ps h
    simp only [Listing.readable, Bool.and_eq_true, Option.isNone_iff_eq_none] at h
    obtain ⟨⟨hre, hc⟩, hr⟩ := h
    subst hre
    cases hi : ignoresDir (Join path name) with
    | true => rw [walkNames_ignored _ _ _ _ _ hi]; exact ihr path ps hr
    | false =>
      rw [walkNames_entered _ _ _ _ _ hi]
      have h1 := ihc (Join path name) (ps ++ [Join path name]) hc
      simp [h1, ihr _ _ hr]

theorem walkNames_ne_skipDir (l : Listing) : ∀ (path : GoString) (ps : List GoString),
    (walkNames collectDir path l ps).1 ≠ some .SkipDir := by
  induction l with
  | nil => intro path ps; simp [walkNames]
  | file name rest ih => intro path ps; rw [walkNames_file]; exact ih path ps
  | bad name e rest _ => intro path ps; rw [walkNames_bad]; simp
  | dir name readErr children rest _ ihr =>
    intro path ps
    cases readErr with
    | some e => rw [walkNames_unreadable]; simp
    | none =>
      cases hi : ignoresDir (Join path name) with
      | true => rw [walkNames_ignored _ _ _ _ _ hi]; exact ihr path ps
      | false =>
        rw [walkNames_entered _ _ _ _ _ hi]
        dsimp only
        split
        · rename_i hc
          simp only [Bool.and_eq_true, bne_iff_ne, ne_eq] at hc
          exact hc.2
        · exact ihr _ _

theorem walkNames_complete (l : Listing) : ∀ (path : GoString) (ps : List GoString)
    (names : List GoString), (walkNames collectDir path l ps).1 = none → HasDir l names →
    (∀ pre, pre <+: names → pre ≠ [] → ignoresDir (pathAt path pre) = false) →
    pathAt path names ∈ (walkNames collectDir path l ps).2 := by
  induction l with
  | nil => intro path ps names _ hd; cases hd
  | file name rest ih =>
    intro path ps names h hd hp
    rw [walkNames_file] at h ⊢
    cases hd with
    | afterFile _ _ _ hd1 => exact ih path ps names h hd1 hp
  | bad name e rest _ => intro path ps names h; simp [walkNames_bad] at h
  | dir name readErr children rest ihc ihr =>
    intro path ps names h hd hp
    cases readErr with
    | some e => simp [walkNames_unreadable] at h
    | none =>
      cases hi : ignoresDir (Join path name) with
      | true =>
        rw [walkNames_ignored _ _ _ _ _ hi] at h ⊢
        cases hd with
        | here =>
          have := hp [name] (List.prefix_refl _) (by simp)
          simp [pathAt, hi] at this
        | down _ _ _ names1 hd1 =>
          have := hp [name] (by simp [List.prefix_iff_eq_append]) (by simp)
          simp [pathAt, hi] at this
        | afterDir _ _ _ _ _ hd1 => exact ihr path ps names h hd1 hp
      | false =>
        rw [walkNames_entered _ _ _ _ _ hi] at h ⊢
        dsimp only at h ⊢
        have hne := walkNames_ne_skipDir children (Join path name) (ps ++ [Join path name])
        have hr1 : (walkNames collectDir (Join path name) children
            (ps ++ [Join path name])).1 = none := by
          cases hv : (walkNames collectDir (Join path name) children
              (ps ++ [Join path name])).1 with
          | none => rfl
          | some v =>
            have hv2 : v ≠ .SkipDir := fun hx => hne (by rw [hv, hx])
            simp [hv, hv2] at h
        simp only [hr1, Option.isSome_none, Bool.false_and, Bool.false_eq_true, if_false] at h ⊢
        cases hd with
        | here =>
          exact walkNames_mono rest _ _ _ (walkNames_mono children _ _ _ (by simp [pathAt]))
        | down _ _ _ names1 hd1 =>
          refine walkNames_mono rest _ _ _ (ihc (Join path name) _ names1 hr1 hd1 ?_)
          intro pre hpre hne
          have := hp (name :: pre) (by simpa using hpre) (by simp)
          simpa [pathAt] using this
        | afterDir _ _ _ _ _ hd1 => exact ihr path _ names h hd1 hp

theorem walkNames_sound (l : Listing) : ∀ (path : GoString) (ps : List GoString)
    (q : GoString), q ∈ (walkNames collectDir path l ps).2 →
    q ∈ ps ∨ ∃ names, HasDir l names ∧ q = pathAt path names ∧
      ∀ pre, pre <+: names → pre ≠ [] → ignoresDir (pathAt path pre) = false := by
  induction l with
  | nil => intro path ps q h; left; simpa [walkNames] using h
  | file name rest ih =>
    intro path ps q h
    rw [walkNames_file] at h
    rcases ih path ps q h with h1 | ⟨names, hd, hq, hp⟩
    · exact Or.inl h1
    · exact Or.inr ⟨names, .afterFile _ _ _ hd, hq, hp⟩
  | bad name e rest _ => intro path ps q h; rw [walkNames_bad] at h; exact Or.inl h
  | dir name readErr children rest ihc ihr =>
    intro path ps q h
    cases readErr with
    | some e => rw [walkNames_unreadable] at h; exact Or.inl h
    | none =>
      have hrest : ∀ ps1, q ∈ (walkNames collectDir path rest ps1).2 →
          q ∈ ps1 ∨ ∃ names, HasDir (.dir name none children rest) names ∧
            q = pathAt path names ∧
            ∀ pre, pre <+: names → pre ≠ [] → ignoresDir (pathAt path pre) = false := by
        intro ps1 h1
        rcases ihr path ps1 q h1 with h2 | ⟨names, hd, hq, hp⟩
        · exact Or.inl h2
        · exact Or.inr ⟨names, .afterDir _ _ _ _ _ hd, hq, hp⟩
      cases hi : ignoresDir (Join path name) with
      | true => rw [walkNames_ignored _ _ _ _ _ hi] at h; exact hrest ps h
      | false =>
        rw [walkNames_entered _ _ _ _ _ hi] at h
        have hin : q ∈ (walkNames collectDir (Join path name) children
            (ps ++ [Join path name])).2 →
            q ∈ ps ∨ ∃ names, HasDir (.dir name none children rest) names ∧
              q = pathAt path names ∧
              ∀ pre, pre <+: names → pre ≠ [] → ignoresDir (pathAt path pre) = false := by
          intro h1
          rcases ihc (Join path name) _ q h1 with h2 | ⟨names, hd, hq, hp⟩
          · rcases List.mem_append.1 h2 with h3 | h3
            · exact Or.inl h3
            · refine Or.inr ⟨[name], .here _ _ _ _, by simpa [pathAt] using h3, ?_⟩
              intro pre hpre hne
              have : pre = [name] := by
                rcases List.prefix_iff_eq_append.1 hpre with _
                cases pre with
                | nil => exact absurd rfl hne
                | cons a t =>
                  have := List.IsPrefix.length_le hpre
                  cases t with
                  | nil => simpa using hpre
                  | cons b t => simp at this
              subst this
              simpa [pathAt] using hi
          · refine Or.inr ⟨name :: names, .down _ _ _ _ hd, by simpa [pathAt] using hq, ?_⟩
            intro pre hpre hne
            cases pre with
            | nil => exact absurd rfl hne
            | cons a t =>
              have hat : a = name ∧ t <+: names := by simpa using hpre
              obtain ⟨ha, ht⟩ := hat
              subst ha
              cases t with
              | nil => simpa [pathAt] using hi
              | cons b t => simpa [pathAt] using hp (b :: t) ht (by simp)
        dsimp only at h
        split at h
        · exact hin h
        · rcases hrest _ h with h1 | h1
          · exact hin h1
          · exact Or.inr h1

theorem ignoresDir_of_not_hidden (path : GoString) (h : isHiddenName (Base path) = false) :
    ignoresDir path = false := by
  unfold ignoresDir
  unfold isHiddenName at h
  cases h1 : hasPrefix (Base path) ['.'] with
  | false => simp
  | true =>
    have h2 : Base path = ['.', '.'] := by simpa [h1] using h
    simp [h2, hasPrefix]

theorem walk_readable (root : GoString) (st : Root) (h : st.readable = true) :
    (Walk collectDir root st []).1 = none := by
  cases st with
  | missing e => simp [Root.readable] at h
  | file => simp [Walk, collectDir_file]
  | dir readErr children =>
    simp only [Root.readable, Bool.and_eq_true, Option.isNone_iff_eq_none] at h
    obtain ⟨hre, hc⟩ := h
    subst hre
    simp only [Walk, walk, walkDir, collectDir_dir]
    cases hi : ignoresDir root with
    | true => simp
    | false => simp [walkNames_readable children root [root] hc]

/-! ## Lemmas on the running program -/

theorem run_invariant (P : Sys → Prop)
    (hstep : ∀ s l t, P s → step s l = some t → P t) :
    ∀ (ls : List Label) (s t : Sys), P s → run s ls = some t → P t := by
  intro ls
  induction ls with
  | nil => intro s t hs h; simp [run] at h; subst h; exact hs
  | cons l ls ih =>
    intro s t hs h
    simp only [run] at h
    cases hst : step s l with
    | none => simp [hst] at h
    | some s1 =>
      simp only [hst] at h
      exact ih s1 t (hstep s l s1 hs hst) h

@[simp] theorem mainRecvs_nil : mainRecvs [] = [] := rfl

@[simp] theorem mainRecvs_cons (e : Effect) (t : List Effect) :
    mainRecvs (e :: t) = (mainRecv e).toList ++ mainRecvs t := by
  cases h : mainRecv e <;> simp [mainRecvs, h]

@[simp] theorem mainRecvs_append (a b : List Effect) :
    mainRecvs (a ++ b) = mainRecvs a ++ mainRecvs b := by
  simp [mainRecvs]

@[simp] theorem mainRecvs_debugLog (d : Bool) (m : LogMsg) : mainRecvs (debugLog d m) = [] := by
  cases d <;> simp [debugLog, mainRecv]

@[simp] theorem mainRecvs_registerAll (addErr : GoString → Option Errno) (ps : List GoString) :
    mainRecvs (registerAll addErr ps).1 = [] := by
  induction ps with
  | nil => simp [registerAll]
  | cons p ps ih =>
    simp only [registerAll]
    cases addErr p with
    | some e => simp [mainRecv]
    | none => simpa [mainRecv] using ih

theorem watch_main (s : Sys) (e : Option Errno) (st : Root)
    (addErr : GoString → Option Errno) :
    (watch s e st addErr).main = s.main ∧
      mainRecvs (watch s e st addErr).trace = mainRecvs s.trace ∧
      (s.status = .running → (watch s e st addErr).status ≠ .exited 0) := by
  unfold watch
  cases e with
  | some e => simp [logFatal, mainRecv]
  | none =>
    dsimp only
    cases (registerAll addErr (Walk collectDir s.root st []).2).2 <;>
      simp_all [logFatal, mainRecv]

theorem mainInv_step (s : Sys) (l : Label) (t : Sys) (hs : MainInv s) (h : step s l = some t) :
    MainInv t := by
  unfold step at h
  split at h
  · cases h
  · rename_i hrun
    have hst : s.status = .running := by simpa using hrun
    cases l <;> simp only [] at h
    case watchSetup e st addErr =>
      split at h
      · cases h
        obtain ⟨h1, h2, h3⟩ := watch_main s e st addErr
        unfold MainInv at hs ⊢
        rw [h1, h2]
        cases hm : s.main <;> simp_all
      · cases h
    all_goals try unfold runCmd at h
    all_goals repeat' split at h
    all_goals cases h
    all_goals unfold MainInv at hs ⊢
    all_goals try simp only [runCmdOnUpdate, runCmdOnStop, killCmd, watchEvent, watchError]
    all_goals (repeat' split) <;> simp_all [mainRecv, goPanic]

theorem isWrite_eq_testBit (op : Nat) : isWrite op = op.testBit 1 := by
  have h := Nat.and_two_pow op 1
  unfold isWrite fsnotifyWrite
  cases hb : op.testBit 1 <;> simp_all

@[simp] theorem sentCount_nil (c : Chan) : sentCount c [] = 0 := rfl

@[simp] theorem sentCount_cons (c : Chan) (e : Effect) (t : List Effect) :
    sentCount c (e :: t) = (if e = .sent c then 1 else 0) + sentCount c t := by
  by_cases h : e = .sent c
  · subst h; simp [sentCount]; omega
  · have h2 : ¬ (e == Effect.sent c) = true := by simpa using h
    simp [sentCount, h, List.count_cons, h2]

@[simp] theorem sentCount_append (c : Chan) (a b : List Effect) :
    sentCount c (a ++ b) = sentCount c a + sentCount c b := by
  simp [sentCount]

@[simp] theorem sentCount_debugLog (c : Chan) (d : Bool) (m : LogMsg) :
    sentCount c (debugLog d m) = 0 := by
  cases d <;> simp [debugLog, sentCount]

@[simp] theorem sentCount_registerAll (c : Chan) (addErr : GoString → Option Errno)
    (ps : List GoString) : sentCount c (registerAll addErr ps).1 = 0 := by
  induction ps with
  | nil => simp [registerAll]
  | cons p ps ih =>
    simp only [registerAll]
    cases addErr p with
    | some e => simp
    | none => simpa using ih

theorem watch_loop (s : Sys) (e : Option Errno) (st : Root)
    (addErr : GoString → Option Errno) (hl : s.loop = .notStarted) :
    sentCount .updates (watch s e st addErr).trace = sentCount .updates s.trace ∧
      pendingSend (watch s e st addErr).loop = 0 ∧
      LoopIdleBeforeSetup (watch s e st addErr) := by
  unfold watch LoopIdleBeforeSetup
  cases e with
  | some e => simp [logFatal, hl, pendingSend]
  | none =>
    dsimp only
    cases (registerAll addErr (Walk collectDir s.root st []).2).2 <;>
      simp [logFatal, pendingSend]

theorem loop_step (s : Sys) (l : Label) (t : Sys) (hs : LoopIdleBeforeSetup s)
    (h : step s l = some t) :
    sentCount .updates t.trace + pendingSend t.loop =
      sentCount .updates s.trace + pendingSend s.loop + (if isWriteEvent l then 1 else 0) ∧
    LoopIdleBeforeSetup t := by
  unfold step at h
  split at h
  · cases h
  · rename_i hrun
    have hst : s.status = .running := by simpa using hrun
    cases l <;> simp only [] at h
    case watchSetup e st addErr =>
      split at h
      · rename_i hw
        cases h
        have hl := hs hst hw
        obtain ⟨h1, h2, h3⟩ := watch_loop s e st addErr hl
        rw [h1, h2]; simp [h3, hl, pendingSend, isWriteEvent]
      · cases h
    case fsEvent op name =>
      split at h
      · rename_i hl
        cases h
        unfold LoopIdleBeforeSetup at hs ⊢
        unfold watchEvent
        rw [isWrite_eq_testBit]
        cases hb : op.testBit 1 <;> simp_all [pendingSend, isWriteEvent]
      · cases h
    all_goals try unfold runCmd at h
    all_goals repeat' split at h
    all_goals cases h
    all_goals unfold LoopIdleBeforeSetup at hs ⊢
    all_goals try simp only [runCmdOnUpdate, runCmdOnStop, killCmd, watchError]
    all_goals (repeat' split) <;> simp_all [pendingSend, isWriteEvent, goPanic]

theorem watch_runner (s : Sys) (e : Option Errno) (st : Root)
    (addErr : GoString → Option Errno) :
    (watch s e st addErr).starting = s.starting ∧
      (watch s e st addErr).updateWaiters = s.updateWaiters ∧
      (watch s e st addErr).stopWaiters = s.stopWaiters ∧
      (watch s e st addErr).doneSenders = s.doneSenders ∧
      (watch s e st addErr).children = s.children := by
  unfold watch
  cases e with
  | some e => simp [logFatal]
  | none =>
    dsimp only
    cases (registerAll addErr (Walk collectDir s.root st []).2).2 <;> simp [logFatal]

theorem runnerInv_step (cmd : GoString) (s : Sys) (l : Label) (t : Sys)
    (hs : RunnerInv cmd s) (h : step s l = some t) : RunnerInv cmd t := by
  unfold step at h
  split at h
  · cases h
  · cases l <;> simp only [] at h
    case watchSetup e st addErr =>
      split at h
      · cases h
        obtain ⟨h1, h2, h3, h4, h5⟩ := watch_runner s e st addErr
        unfold RunnerInv at hs ⊢
        rw [h1, h2, h3, h4, h5]
        exact hs
      · cases h
    case ptyStart j res =>
      obtain ⟨h1, h2, h3, h4⟩ := hs
      split at h
      · cases h
      · rename_i a ha
        have hmem := h1 a (List.getElem?_mem ha)
        have hst : ∀ b ∈ s.starting.eraseIdx j, b = mainArgs cmd :=
          fun b hb => h1 b (List.mem_of_mem_eraseIdx hb)
        unfold runCmd at h
        split at h
        · cases h
          exact ⟨hst, h2, h3, h4⟩
        · split at h
          · cases h
          · cases h
            refine ⟨hst, ?_, ?_, h4⟩
            · intro x hx
              rcases List.mem_append.1 hx with hx | hx
              · exact ⟨(h2 x hx).1, List.mem_append_left _ (h2 x hx).2⟩
              · simp only [List.mem_singleton] at hx
                subst hx
                exact ⟨hmem, by simp⟩
            · intro x hx
              rcases List.mem_append.1 hx with hx | hx
              · exact ⟨(h3 x hx).1, List.mem_append_left _ (h3 x hx).2⟩
              · simp only [List.mem_singleton] at hx
                subst hx
                exact ⟨hmem, by simp⟩
    case deliverUpdate i killErr =>
      obtain ⟨h1, h2, h3, h4⟩ := hs
      split at h
      · rename_i a pid hl hw
        have hmem := (h2 _ (List.getElem?_mem hw)).1
        split at h
        · cases h
          cases killErr with
          | some e =>
            exact ⟨h1, fun x hx => h2 x (List.mem_of_mem_eraseIdx hx), h3, h4⟩
          | none =>
            refine ⟨?_, fun x hx => h2 x (List.mem_of_mem_eraseIdx hx), h3, h4⟩
            intro b hb
            rcases List.mem_append.1 hb with hb | hb
            · exact h1 b hb
            · simp only [List.mem_singleton] at hb
              subst hb
              exact hmem
        · cases h
      · cases h
    case deliverStopCmd i killErr =>
      obtain ⟨h1, h2, h3, h4⟩ := hs
      split at h
      · rename_i sig a pid hl hw
        have hmem := (h3 _ (List.getElem?_mem hw)).1
        split at h
        · cases h
          cases killErr with
          | some e =>
            exact ⟨h1, h2, fun x hx => h3 x (List.mem_of_mem_eraseIdx hx), h4⟩
          | none =>
            refine ⟨h1, h2, fun x hx => h3 x (List.mem_of_mem_eraseIdx hx), ?_⟩
            intro c hc
            rcases List.mem_append.1 hc with hc | hc
            · exact h4 c hc
            · simp only [List.mem_singleton] at hc
              subst hc
              have : a = mainArgs cmd := hmem
              subst this
              rfl
        · cases h
      · cases h
    case deliverCmdDone i =>
      obtain ⟨h1, h2, h3, h4⟩ := hs
      split at h
      · cases h
        exact ⟨h1, h2, h3, fun c hc => h4 c (List.mem_of_mem_eraseIdx hc)⟩
      · cases h
    all_goals repeat' split at h
    all_goals cases h
    all_goals first
      | exact hs
      | (unfold watchEvent; split <;> exact hs)

theorem reachable_runnerInv (debug : Bool) (root cmd : GoString) (ls : List Label) (s : Sys)
    (h : run (main debug root cmd) ls = some s) : RunnerInv cmd s :=
  run_invariant (RunnerInv cmd) (runnerInv_step cmd) ls (main debug root cmd) s
    (by simp [RunnerInv, main, mainArgs]) h

/-! ## The claims -/

/-- C1, as stated, fails: under the root `./proj` the directory `..cache` (base name begins
with a dot and is not "..") is in the Watched Directory Set, and so is its subdirectory
`sub`; and for the default root "." the root itself, whose base name is ".", is in the
set. -/
theorem dotdot_named_directory_is_watched :
    "proj/..cache".toList ∈ watchedSet "./proj".toList cacheTree ∧
      isHiddenName (Base "proj/..cache".toList) = true ∧
      "proj/..cache/sub".toList ∈ watchedSet "./proj".toList cacheTree ∧
      ['.'] ∈ watchedSet ['.'] (.dir none .nil) ∧
      isHiddenName (Base ['.']) = true := by
  decide

/-- C1, amended: for every directory tree and every watch root, the Watched Directory Set
contains no directory that the callback ignores (path longer than one character, base name
beginning with "." but not with "..") and no descendant of one.  Every collected path is
itself not ignored, and it is the path of a directory reached from the watch root through
readable directories none of which, the root and the directory itself included, is ignored;
in particular no entry name on the way begins with "." unless it begins with "..". -/
theorem watched_dirs_avoid_ignored_dirs (root : GoString) (st : Root) (p : GoString)
    (h : p ∈ watchedSet root st) :
    ignoresDir p = false ∧
    ∃ names, RootHasDir st names ∧ p = pathAt root names ∧
      (∀ pre, pre <+: names → ignoresDir (pathAt root pre) = false) ∧
      (∀ n ∈ names, validName n = true → hasPrefix n ['.'] = true →
        hasPrefix n ['.', '.'] = true) := by
  have key : ∃ names, RootHasDir st names ∧ p = pathAt root names ∧
      ∀ pre, pre <+: names → ignoresDir (pathAt root pre) = false := by
    unfold watchedSet Walk at h
    cases st with
    | missing e => simp [collectDir_err] at h
    | file => simp [collectDir_file] at h
    | dir readErr children =>
      cases readErr with
      | some e => simp [walk, walkDir, collectDir_err] at h
      | none =>
        simp only [walk, walkDir, collectDir_dir] at h
        cases hi : ignoresDir root with
        | true => simp [hi] at h
        | false =>
          simp only [hi, Bool.false_eq_true, if_false, Option.isSome_none, Bool.or_false,
            List.nil_append] at h
          have hp : p ∈ (walkNames collectDir root children [root]).2 := by
            split at h <;> exact h
          rcases walkNames_sound children root [root] p hp with h1 | ⟨names, hd, hq, hpre⟩
          · refine ⟨[], .root _ _, by simpa [pathAt] using h1, ?_⟩
            intro pre hpre
            have : pre = [] := by simpa using hpre
            subst this
            simpa [pathAt] using hi
          · refine ⟨names, .below _ _ hd, hq, ?_⟩
            intro pre hp1
            cases pre with
            | nil => simpa [pathAt] using hi
            | cons a t => exact hpre _ hp1 (by simp)
  obtain ⟨names, hd, hq, hpre⟩ := key
  refine ⟨by rw [hq]; exact hpre names (List.prefix_refl _), names, hd, hq, hpre, ?_⟩
  intro n hn hv hdot
  obtain ⟨front, back, hsplit⟩ := List.append_of_mem hn
  have hpfx : front ++ [n] <+: names := ⟨back, by rw [hsplit]; simp⟩
  have hig := hpre _ hpfx
  have hjoin : pathAt root (front ++ [n]) = Join (pathAt root front) n := by
    simp [pathAt, List.foldl_append]
  rw [hjoin, ignoresDir_join _ n hv, hdot] at hig
  simpa using hig

/-- Witness of C1 (amended) on the scenario tree: `proj/src` is collected and not ignored. -/
theorem watched_dirs_avoid_ignored_dirs_witness :
    "proj/src".toList ∈ watchedSet "./proj".toList projTree ∧
      ignoresDir "proj/src".toList = false :=
  ⟨by decide,
   (watched_dirs_avoid_ignored_dirs "./proj".toList projTree "proj/src".toList (by decide)).1⟩

/-- C2, as stated, fails on trees where the walk meets an error: the callback returns the
error and the walk ends there.  Under the root `./proj` the hidden directory `.secret` cannot
be read; its sibling `src` is a directory, neither it nor the root is hidden, and yet `src`
is not in the Watched Directory Set, which holds the root only.  In the same way the
directory `c` that comes after an unreadable directory `b` is left out. -/
theorem unreadable_entry_drops_unhidden_dir :
    RootHasDir secretTree ["src".toList] ∧
      isHiddenName (Base "./proj".toList) = false ∧
      isHiddenName (Base (pathAt "./proj".toList ["src".toList])) = false ∧
      pathAt "./proj".toList ["src".toList] ∉ watchedSet "./proj".toList secretTree ∧
      watchedSet "./proj".toList secretTree = ["./proj".toList] ∧
      RootHasDir unreadableTree [['c']] ∧
      isHiddenName (Base (pathAt "./proj".toList [['c']])) = false ∧
      pathAt "./proj".toList [['c']] ∉ watchedSet "./proj".toList unreadableTree ∧
      watchedSet "./proj".toList unreadableTree = ["./proj".toList, "proj/a".toList] :=
  ⟨.below _ _ (.afterDir _ _ _ _ _ (.here _ _ _ _)), by decide, by decide, by decide,
   by decide,
   .below _ _ (.afterDir _ _ _ _ _ (.afterDir _ _ _ _ _ (.here _ _ _ _))), by decide,
   by decide, by decide⟩

/-- C2, amended: when the walk reports no error, every directory at or below a watch root
that the callback does not skip (every root whose base name is not hidden, and also the
root "."), whose own base name and the base names of all directories between it and the
root are not hidden (do not begin with ".", or are ".."), is in the Watched Directory Set.
Siblings of a pruned directory are reached because a `SkipDir` only ends the walk of that
directory. -/
theorem unhidden_dirs_are_watched (root : GoString) (st : Root) (names : List GoString)
    (hwalk : (Walk collectDir root st []).1 = none)
    (hdir : RootHasDir st names)
    (hroot : ignoresDir root = false)
    (hchain : ∀ pre, pre <+: names → pre ≠ [] → isHiddenName (Base (pathAt root pre)) = false) :
    pathAt root names ∈ watchedSet root st := by
  have hchain2 : ∀ pre, pre <+: names → pre ≠ [] → ignoresDir (pathAt root pre) = false :=
    fun pre h1 h2 => ignoresDir_of_not_hidden _ (hchain pre h1 h2)
  unfold watchedSet
  unfold Walk at hwalk ⊢
  cases hdir with
  | root readErr children =>
    cases readErr with
    | some e => simp [walk, walkDir, collectDir_err] at hwalk
    | none =>
      simp only [walk, walkDir, collectDir_dir, hroot] at hwalk ⊢
      have : pathAt root [] ∈ (walkNames collectDir root children ([] ++ [root])).2 :=
        walkNames_mono children _ _ _ (by simp [pathAt])
      simp only [Bool.false_eq_true, if_false, Option.isSome_none, Bool.or_false]
      split <;> exact this
  | below children _ hd =>
    simp only [walk, walkDir, collectDir_dir, hroot] at hwalk ⊢
    simp only [Bool.false_eq_true, if_false, Option.isSome_none, Bool.or_false] at hwalk ⊢
    have hne := walkNames_ne_skipDir children root ([] ++ [root])
    have h1 : (walkNames collectDir root children ([] ++ [root])).1 = none := by
      split at hwalk
      · rename_i hc; exact absurd hc hne
      · exact hwalk
    have := walkNames_complete children root ([] ++ [root]) names h1 hd hchain2
    split <;> exact this

/-- Witness of C2 (amended), the scenario: under the root `./proj` holding `.git/HEAD` and
`src/main.txt` the walk collects the root and `src` (as `proj/src`), and not `.git`. -/
theorem unhidden_dirs_are_watched_witness :
    (Walk collectDir "./proj".toList projTree []).1 = none ∧
      RootHasDir projTree ["src".toList] ∧
      ignoresDir "./proj".toList = false ∧
      pathAt "./proj".toList ["src".toList] ∈ watchedSet "./proj".toList projTree ∧
      watchedSet "./proj".toList projTree = ["./proj".toList, "proj/src".toList] :=
  ⟨by decide,
   .below _ _ (.afterDir _ _ _ _ _ (.here _ _ _ _)),
   by decide,
   unhidden_dirs_are_watched "./proj".toList projTree ["src".toList] (by decide)
     (.below _ _ (.afterDir _ _ _ _ _ (.here _ _ _ _))) (by decide)
     (by
       intro pre hpre hne
       have hlen := hpre.length_le
       cases pre with
       | nil => exact absurd rfl hne
       | cons a t =>
         cases t with
         | nil =>
           have : a = "src".toList := by simpa using hpre
           subst this
           decide
         | cons b t => simp at hlen),
   by decide⟩

/-- C3: in every run the number of sends `updates <- 1` the event goroutine has executed
(completed, or blocked waiting for a receiver) equals the number of events it was handed
whose `Op` has the `Write` bit set, alone or with other bits: each such event causes exactly
one send, an event without the bit causes none, and an error of the subscription causes
none. -/
theorem write_events_send_one_update (debug : Bool) (root cmd : GoString) (ls : List Label)
    (s : Sys) (h : run (main debug root cmd) ls = some s) :
    sentCount .updates s.trace + pendingSend s.loop = (ls.filter isWriteEvent).length := by
  have key : ∀ (ls : List Label) (s t : Sys), LoopIdleBeforeSetup s → run s ls = some t →
      sentCount .updates t.trace + pendingSend t.loop =
        sentCount .updates s.trace + pendingSend s.loop + (ls.filter isWriteEvent).length := by
    intro ls
    induction ls with
    | nil => intro s t _ h; simp [run] at h; subst h; simp
    | cons l ls ih =>
      intro s t hs h
      simp only [run] at h
      cases hst : step s l with
      | none => simp [hst] at h
      | some s1 =>
        simp only [hst] at h
        obtain ⟨h1, h2⟩ := loop_step s l s1 hs hst
        rw [ih s1 t h2 h, h1]
        cases hw : isWriteEvent l <;> simp [List.filter, hw]
        omega
  have := key ls (main debug root cmd) s (by simp [LoopIdleBeforeSetup, main]) h
  simpa [main, pendingSend] using this

/-- Witness of C3: a write, a chmod, an error, a create combined with a write and a remove
cause two sends. -/
theorem write_events_send_one_update_witness :
    run (main false ['.'] "make run".toList) mixedEvents =
        some (stateAfter ['.'] "make run".toList mixedEvents) ∧
      sentCount .updates (stateAfter ['.'] "make run".toList mixedEvents).trace +
        pendingSend (stateAfter ['.'] "make run".toList mixedEvents).loop = 2 :=
  ⟨by decide,
   (write_events_send_one_update false ['.'] "make run".toList mixedEvents
     (stateAfter ['.'] "make run".toList mixedEvents) (by decide)).trans (by decide)⟩

/-- C4: in a running process whose event goroutine offers a value on the restart channel,
let a goroutine of `runCmd` with child (process group) `G` receive it.  It sends SIGKILL to
the group (`kill(-G, SIGKILL)`) and, the kill having succeeded, starts exactly one new
`runCmd` with the same command and the same three channels, those of the call in `main`.
When `pty.Start` succeeds in it with the pid `G'` (one that no unreaped child holds), `G'`
differs from `G` and is the child started last, the active Running Command Handle, with
one goroutine waiting for the next restart and one more waiting for stop. -/
theorem restart_kills_group_and_starts_new_child (debug : Bool) (root cmd : GoString)
    (ls : List Label) (s : Sys) (i : Nat) (a : RunArgs) (G G' : Nat)
    (hreach : run (main debug root cmd) ls = some s)
    (hrun : s.status = .running)
    (hsend : s.loop = .sendUpdate)
    (hw : s.updateWaiters[i]? = some (a, G))
    (hfresh : G' ∉ s.children) :
    ∃ s1 s2,
      step s (.deliverUpdate i none) = some s1 ∧
      s1.trace = s.trace ++ [.sent .updates] ++ debugLog s.debug .debugUpdating ++
        [.kill (-(G : Int)) .SIGKILL none, .goRunCmd a] ∧
      a = ⟨cmd, .updates, .stopCmd, .cmdDone⟩ ∧
      s1.starting = s.starting ++ [a] ∧
      s1.status = .running ∧
      step s1 (.ptyStart s.starting.length (.ok G')) = some s2 ∧
      s2.trace = s1.trace ++ [.log (.runningCommand a.cmd), .ptyStart a.cmd (.ok G')] ∧
      s2.starting = s.starting ∧
      G' ≠ G ∧
      activeChild s2 = some G' ∧
      s2.updateWaiters = s.updateWaiters.eraseIdx i ++ [(a, G')] ∧
      s2.stopWaiters = s.stopWaiters ++ [(a, G')] := by
  obtain ⟨h1, h2, h3, h4⟩ := reachable_runnerInv debug root cmd ls s hreach
  have hmem := h2 _ (List.getElem?_mem hw)
  have ha : a = mainArgs cmd := hmem.1
  have hG : G ∈ s.children := hmem.2
  subst ha
  have hne : G' ≠ G := fun h => hfresh (h ▸ hG)
  have e1 : step s (.deliverUpdate i none) = some
      { s with loop := .selecting, updateWaiters := s.updateWaiters.eraseIdx i,
               starting := s.starting ++ [mainArgs cmd],
               trace := s.trace ++ [.sent .updates] ++ debugLog s.debug .debugUpdating ++
                 [.kill (-(G : Int)) .SIGKILL none] ++ [.goRunCmd (mainArgs cmd)] } := by
    simp [step, hrun, hsend, hw, runCmdOnUpdate, killCmd, mainArgs]
  refine ⟨_, { s with loop := .selecting,
                      updateWaiters := s.updateWaiters.eraseIdx i ++ [(mainArgs cmd, G')],
                      stopWaiters := s.stopWaiters ++ [(mainArgs cmd, G')],
                      children := s.children ++ [G'],
                      trace := s.trace ++ [.sent .updates] ++ debugLog s.debug .debugUpdating ++
                        [.kill (-(G : Int)) .SIGKILL none] ++ [.goRunCmd (mainArgs cmd)] ++
                        [.log (.runningCommand cmd), .ptyStart cmd (.ok G')] },
    e1, by simp, rfl, rfl, hrun, ?_, by simp [mainArgs], rfl, hne, by simp [activeChild],
    rfl, rfl⟩
  have hers : (s.starting ++ [mainArgs cmd]).eraseIdx s.starting.length = s.starting := by
    rw [List.eraseIdx_append_of_length_le (le_refl _)]
    simp
  simp [step, runCmd, hrun, hfresh, hers]
  simp [mainArgs]

/-- Witness of C4: child 100 is killed on a write and replaced by child 101. -/
theorem restart_kills_group_and_starts_new_child_witness :
    run (main false ['.'] "make run".toList) writeSeen =
        some (stateAfter ['.'] "make run".toList writeSeen) ∧
      (stateAfter ['.'] "make run".toList writeSeen).status = .running ∧
      (stateAfter ['.'] "make run".toList writeSeen).loop = .sendUpdate ∧
      (stateAfter ['.'] "make run".toList writeSeen).updateWaiters[0]? =
        some (mainArgs "make run".toList, 100) ∧
      101 ∉ (stateAfter ['.'] "make run".toList writeSeen).children ∧
      ∃ s1 s2,
        step (stateAfter ['.'] "make run".toList writeSeen) (.deliverUpdate 0 none) = some s1 ∧
        killTargets s1.trace = [-100] ∧
        step s1 (.ptyStart 0 (.ok 101)) = some s2 ∧
        activeChild s2 = some 101 := by
  refine ⟨by decide, by decide, by decide, by decide, by decide, ?_⟩
  obtain ⟨s1, s2, h1, h2, _, _, _, h6, _, _, _, h10, _, _⟩ :=
    restart_kills_group_and_starts_new_child false ['.'] "make run".toList writeSeen
      (stateAfter ['.'] "make run".toList writeSeen) 0 (mainArgs "make run".toList) 100 101
      (by decide) (by decide) (by decide) (by decide) (by decide)
  refine ⟨s1, s2, h1, ?_, h6, h10⟩
  rw [h2]
  decide

/-- C5: in every run, when the process has ended with status 0 (`main` has returned), the
values `main` received are exactly one on `cmdDone`, then one on `watchDone`, then one on
`done`, in this order.  Hence after the two stop signals have been sent the process does not
end normally before both done acknowledgements have been received. -/
theorem main_returns_after_done_signals (debug : Bool) (root cmd : GoString) (ls : List Label)
    (s : Sys) (h : run (main debug root cmd) ls = some s) (hexit : s.status = .exited 0) :
    mainRecvs s.trace = [.cmdDone, .watchDone, .done] := by
  have hinv : MainInv s :=
    run_invariant MainInv mainInv_step ls (main debug root cmd) s (by simp [MainInv, main]) h
  unfold MainInv at hinv
  cases hm : s.main <;> simp_all

/-- Witness of C5: a start, SIGTERM and the full shutdown. -/
theorem main_returns_after_done_signals_witness :
    run (main false ['.'] "make run".toList) plainShutdown =
        some (stateAfter ['.'] "make run".toList plainShutdown) ∧
      (stateAfter ['.'] "make run".toList plainShutdown).status = .exited 0 ∧
      mainRecvs (stateAfter ['.'] "make run".toList plainShutdown).trace =
        [.cmdDone, .watchDone, .done] :=
  ⟨by decide, by decide,
   main_returns_after_done_signals false ['.'] "make run".toList plainShutdown
     (stateAfter ['.'] "make run".toList plainShutdown) (by decide) (by decide)⟩

/-- C6 fails on the code after a restart.  Child 100 is replaced by child 101; the goroutine
of the first `runCmd` that waits on `stop` is still there, and it is the one that receives
the stop.  SIGKILL goes to group 100 a second time, one value is sent on `cmdDone`, `main`
returns with status 0, and group 101, the active child, has never been sent a signal. -/
theorem stale_stop_listener_spares_active_child :
    run (main false ['.'] "make run".toList) staleStopRun =
        some (stateAfter ['.'] "make run".toList staleStopRun) ∧
      (stateAfter ['.'] "make run".toList staleStopRun).status = .exited 0 ∧
      activeChild (stateAfter ['.'] "make run".toList staleStopRun) = some 101 ∧
      killTargets (stateAfter ['.'] "make run".toList staleStopRun).trace = [-100, -100] ∧
      sentCount .cmdDone (stateAfter ['.'] "make run".toList staleStopRun).trace = 1 ∧
      (stateAfter ['.'] "make run".toList staleStopRun).stopWaiters =
        [(mainArgs "make run".toList, 101)] := by
  decide

/-- C7 fails on the code.  When `pty.Start` fails at startup, `runCmd` returns the error to
the `go` statement, which drops it: nothing but "running command" is logged, the process
keeps running without a child, and no goroutine waits on `stop`, so that after SIGINT the
signal goroutine stays blocked in `stopCmd <- true` and `main` in `<-cmdDone`.  When it
fails on a restart the old child has been killed, no child runs and no goroutine waits
for the next restart; only the stop goroutine of the killed child is left. -/
theorem pty_failure_is_dropped :
    run (main false ['.'] "make run".toList) ptyFailsAtStart =
        some (stateAfter ['.'] "make run".toList ptyFailsAtStart) ∧
      (stateAfter ['.'] "make run".toList ptyFailsAtStart).status = .running ∧
      (stateAfter ['.'] "make run".toList ptyFailsAtStart).trace =
        [.log (.runningCommand "make run".toList),
         .ptyStart "make run".toList (.error .ENOENT),
         .log (.watching ['.']), .watcherAdd ['.'] none, .sent .stopWatch] ∧
      (stateAfter ['.'] "make run".toList ptyFailsAtStart).children = [] ∧
      (stateAfter ['.'] "make run".toList ptyFailsAtStart).stopWaiters = [] ∧
      (stateAfter ['.'] "make run".toList ptyFailsAtStart).shut = .sendStopCmd .SIGINT ∧
      (stateAfter ['.'] "make run".toList ptyFailsAtStart).main = .recvCmdDone ∧
      run (main false ['.'] "make run".toList) ptyFailsOnRestart =
        some (stateAfter ['.'] "make run".toList ptyFailsOnRestart) ∧
      (stateAfter ['.'] "make run".toList ptyFailsOnRestart).status = .running ∧
      killTargets (stateAfter ['.'] "make run".toList ptyFailsOnRestart).trace = [-100] ∧
      (stateAfter ['.'] "make run".toList ptyFailsOnRestart).children = [100] ∧
      (stateAfter ['.'] "make run".toList ptyFailsOnRestart).updateWaiters = [] ∧
      (stateAfter ['.'] "make run".toList ptyFailsOnRestart).starting = [] := by
  decide

/-- C8 fails on the code.  The error returned by `filepath.Walk` is not looked at.  For a
watch root that does not exist the walk returns the error of `Lstat`, yet `watch` logs
nothing, registers the empty set and waits for stop.  For a root whose second directory
cannot be read the walk returns that error, yet `watch` registers the root and the first
directory, not the third one, and waits for stop. -/
theorem walk_error_is_dropped :
    (Walk collectDir "nosuchdir".toList (.missing .ENOENT) []).1 = some (.os .ENOENT) ∧
      (step (main false "nosuchdir".toList "make run".toList)
          (.watchSetup none (.missing .ENOENT) (fun _ => none))).map
        (fun t => (t.status, t.watch, t.trace)) = some (.running, .recvStop [], []) ∧
      (Walk collectDir ['.'] unreadableTree []).1 = some (.os .EACCES) ∧
      (step (main false ['.'] "make run".toList)
          (.watchSetup none unreadableTree (fun _ => none))).map
        (fun t => (t.status, t.watch, t.trace)) =
        some (.running, .recvStop [['.'], ['a']],
          [.log (.watching ['.']), .watcherAdd ['.'] none,
           .log (.watching ['a']), .watcherAdd ['a'] none]) := by
  decide

/-- C9: when `killCmd` returns an error the goroutine panics and the process ends with
status 2.  In the restart goroutine the kill is followed by the panic only: no `runCmd` is
started and no child is added.  In the stop goroutine the kill is followed by the panic
only: the goroutine never reaches `done <- true`.  In both cases nothing can happen after
the panic. -/
theorem kill_failure_panics :
    (∀ (s : Sys) (i : Nat) (a : RunArgs) (G : Nat) (e : Errno),
      s.status = .running → s.loop = .sendUpdate → s.updateWaiters[i]? = some (a, G) →
      a.update = .updates →
      ∃ t, step s (.deliverUpdate i (some e)) = some t ∧
        t.status = .exited 2 ∧
        t.trace = s.trace ++ [.sent .updates] ++ debugLog s.debug .debugUpdating ++
          [.kill (-(G : Int)) .SIGKILL (some e), .panic e, .exit 2] ∧
        t.starting = s.starting ∧ t.children = s.children ∧
        ∀ l, step t l = none) ∧
    (∀ (s : Sys) (i : Nat) (a : RunArgs) (G : Nat) (e : Errno) (sig : Signal),
      s.status = .running → s.shut = .sendStopCmd sig → s.stopWaiters[i]? = some (a, G) →
      a.stop = .stopCmd →
      ∃ t, step s (.deliverStopCmd i (some e)) = some t ∧
        t.status = .exited 2 ∧
        t.trace = s.trace ++ [.sent .stopCmd] ++ debugLog s.debug .debugStopping ++
          [.kill (-(G : Int)) .SIGKILL (some e), .panic e, .exit 2] ∧
        t.doneSenders = s.doneSenders ∧
        ∀ l, step t l = none) := by
  constructor
  · intro s i a G e hrun hloop hw ha
    refine ⟨{ s with status := .exited 2, loop := .selecting,
                     updateWaiters := s.updateWaiters.eraseIdx i,
                     trace := s.trace ++ [.sent .updates] ++ debugLog s.debug .debugUpdating ++
                       [.kill (-(G : Int)) .SIGKILL (some e)] ++ [.panic e, .exit 2] },
      ?_, rfl, by simp, rfl, rfl, ?_⟩
    · simp [step, hrun, hloop, hw, ha, runCmdOnUpdate, killCmd, goPanic]
    · intro l
      simp [step]
  · intro s i a G e sig hrun hshut hw ha
    refine ⟨{ s with status := .exited 2, shut := .logStopping sig,
                     stopWaiters := s.stopWaiters.eraseIdx i,
                     trace := s.trace ++ [.sent .stopCmd] ++ debugLog s.debug .debugStopping ++
                       [.kill (-(G : Int)) .SIGKILL (some e)] ++ [.panic e, .exit 2] },
      ?_, rfl, by simp, rfl, ?_⟩
    · simp [step, hrun, hshut, hw, ha, runCmdOnStop, killCmd, goPanic]
    · intro l
      simp [step]

/-- Witness of C9: the kill of child 100 fails with ESRCH, once in the restart goroutine and
once in the stop goroutine. -/
theorem kill_failure_panics_witness :
    (∃ t, step (stateAfter ['.'] "make run".toList writeSeen)
        (.deliverUpdate 0 (some .ESRCH)) = some t ∧ t.status = .exited 2 ∧
        t.starting = [] ∧ ∀ l, step t l = none) ∧
    (∃ t, step (stateAfter ['.'] "make run".toList stopPending)
        (.deliverStopCmd 0 (some .ESRCH)) = some t ∧ t.status = .exited 2 ∧
        t.doneSenders = [] ∧ ∀ l, step t l = none) := by
  constructor
  · obtain ⟨t, h1, h2, _, h4, _, h6⟩ :=
      kill_failure_panics.1 (stateAfter ['.'] "make run".toList writeSeen) 0
        (mainArgs "make run".toList) 100 .ESRCH (by decide) (by decide) (by decide) (by decide)
    exact ⟨t, h1, h2, h4.trans (by decide), h6⟩
  · obtain ⟨t, h1, h2, _, h4, h5⟩ :=
      kill_failure_panics.2 (stateAfter ['.'] "make run".toList stopPending) 0
        (mainArgs "make run".toList) 100 .ESRCH .SIGINT (by decide) (by decide) (by decide)
        (by decide)
    exact ⟨t, h1, h2, h4.trans (by decide), h5⟩

end Reload
